import Mathlib

/-! Verification of `GetContainedIn`, `BigTableReadRowsParallel` and `GetProjectID`

A shallow embedding of three functions of `util/util.go`:

* `GetContainedIn` (lines 168-207), the closure of the `containedInPlace`
  hierarchy;
* `BigTableReadRowsParallel` (lines 254-317), the batched parallel scan;
* `GetProjectID` (lines 86-102).

Modelling conventions:

* A Go `map[K]V` is a total function `K → Option V` (or `K → List _` where the
  code only ever tests `len` / ranges over the value); `m[k] = v` is `mapSet`.
* A Go `[]string` that is only ever owned by one variable is a `List String`.
  The values of `result` are *not* of that kind: `append(result[k1], x)` is
  stored under another key `k2`, so two map values may share one backing array.
  They are therefore modelled as slice headers (`Slice`) over an explicit heap of
  backing arrays (`Heap`), and Go's `append` is `goAppend`.
* The capacity chosen by the runtime when `append` has to reallocate is not
  fixed by the language; it is the parameter `grow` (old capacity ↦ new
  capacity).  `gcGrow` is the policy of the standard toolchain for small slices.
* `for c, ps := range link` visits the keys of a map in an unspecified order;
  the order is the parameter `order`, a permutation of `linkKeys`.
* The work list `morep` starts as an alias of `link[c]`; its appends can only
  write beyond the length of `link[c]`, where no reader of `link` looks, so the
  work list is a `List String` as well.
* The `for len(morep) > 0` loop need not terminate; `traverse` takes fuel and
  returns `none` when it runs out.
-/

namespace Mixer

/-! ## Data model (util.go, lines 74-84) and Go slices -/

/-- One record of the type-relation JSON file (`type typeInfo struct`). -/
structure typeInfo where
  Predicate : String
  SubType : String
  ObjType : String
deriving DecidableEq, Repr

/-- The Go struct `TypePair`, the key type of the closure table. -/
structure TypePair where
  Child : String
  Parent : String
deriving DecidableEq, Repr

/-- Go slice header of a `[]string`: backing array, length, capacity. -/
structure Slice where
  arr : Nat
  len : Nat
  cap : Nat
deriving DecidableEq, Repr

/-- The heap of backing arrays; array `i` is `heap[i]`, its length is its
capacity and unwritten slots hold the zero value `""`. -/
abbrev Heap := List (List String)

/-- The empty slice literal `[]string{}` (and the nil slice): length 0, capacity 0. -/
def emptySlice : Slice := { arr := 0, len := 0, cap := 0 }

/-- The elements seen through a slice header. -/
def Slice.read (h : Heap) (s : Slice) : List String :=
  (h.getD s.arr []).take s.len

/-- Go's `append(s, v)` for one element.  With spare capacity the element is
written in place into the shared backing array; otherwise a new array of
capacity `max (grow s.cap) (s.len + 1)` is allocated and the old elements are
copied.  Returns the new heap and the new slice header. -/
def goAppend (grow : Nat → Nat) (h : Heap) (s : Slice) (v : String) : Heap × Slice :=
  if s.len < s.cap then
    (h.set s.arr ((h.getD s.arr []).set s.len v), { s with len := s.len + 1 })
  else
    let newCap := max (grow s.cap) (s.len + 1)
    (h ++ [s.read h ++ [v] ++ List.replicate (newCap - (s.len + 1)) ""],
      { arr := h.length, len := s.len + 1, cap := newCap })

/-- Capacity growth of the standard Go runtime (`runtime.growslice`) for
element sizes that are a power of two, below the doubling threshold:
0 ↦ 1, and otherwise the capacity doubles. -/
def gcGrow (oldCap : Nat) : Nat := if oldCap = 0 then 1 else 2 * oldCap

/-- The growth policy that never leaves spare capacity: every `append` copies,
as on immutable lists. -/
def exactFit (_ : Nat) : Nat := 0

/-- Map assignment `m[k] = v`. -/
def mapSet {K V : Type} [DecidableEq K] (m : K → V) (k : K) (v : V) : K → V :=
  fun k' => if k' = k then v else m k'

/-! ## `GetContainedIn` (util.go, lines 168-207) -/

/-- The variables `result`, `link`, `all` of `GetContainedIn` after (part of)
the first loop, lines 177-187. -/
structure Vars where
  result : TypePair → Option Slice
  link : String → List String
  all : List String

/-- State before the first loop (lines 177-179). -/
def Vars.init : Vars :=
  { result := fun _ => none, link := fun _ => [], all := [] }

/-- Body of the first loop (lines 181-186). -/
def recordStep (v : Vars) (info : typeInfo) : Vars :=
  if info.Predicate = "containedInPlace" then
    { link := mapSet v.link info.SubType (v.link info.SubType ++ [info.ObjType])
      result := mapSet v.result { Child := info.SubType, Parent := info.ObjType } (some emptySlice)
      all := v.all ++ [info.SubType, info.ObjType] }
  else v

/-- The first loop, lines 180-187. -/
def readRecords (ti : List typeInfo) : Vars :=
  ti.foldl recordStep Vars.init

/-- The end nodes, lines 189-194: the names of `all` that are no key of `link`
(a key of `link` always has a non-empty list). -/
def endNodes (v : Vars) : List String :=
  v.all.filter (fun one => v.link one = [])

/-- The map `result` together with the heap its slices point into. -/
structure State where
  result : TypePair → Option Slice
  heap : Heap

/-- Body of the innermost loop (lines 201-202) for one parent `p` of `curr`;
the accumulator is the state and the work list `morep`. -/
def parentStep (grow : Nat → Nat) (c curr : String) (acc : State × List String) (p : String) :
    State × List String :=
  let base := (acc.1.result { Child := c, Parent := curr }).getD emptySlice
  let r := goAppend grow acc.1.heap base curr
  ({ result := mapSet acc.1.result { Child := c, Parent := p } (some r.2), heap := r.1 },
    acc.2 ++ [p])

/-- The work-list loop `for len(morep) > 0` (lines 197-204) for the child `c`. -/
def traverse (grow : Nat → Nat) (link : String → List String) (c : String) :
    Nat → List String → State → Option State
  | _, [], st => some st
  | 0, _ :: _, _ => none
  | fuel + 1, curr :: morep, st =>
    let acc := (link curr).foldl (parentStep grow c curr) (st, morep)
    traverse grow link c fuel acc.2 acc.1

/-- The loop over the children `for c, ps := range link` (lines 195-205), the
keys being visited in the order `order`. -/
def closureLoop (grow : Nat → Nat) (link : String → List String) (fuel : Nat) :
    List String → State → Option State
  | [], st => some st
  | c :: cs, st =>
    match traverse grow link c fuel (link c) st with
    | none => none
    | some st' => closureLoop grow link fuel cs st'

/-- The keys of `link`, each listed once. -/
def linkKeys (ti : List typeInfo) : List String :=
  ((ti.filter (fun info => info.Predicate = "containedInPlace")).map (fun info => info.SubType)).dedup

/-- The table handed back to the caller: for each key the elements of its slice. -/
def State.table (st : State) : TypePair → Option (List String) :=
  fun k => (st.result k).map (Slice.read st.heap)

/-- `GetContainedIn` on the decoded records `ti` (what `json.Unmarshal` left in
`ti`, line 176).  `none` means that the traversal did not finish within `fuel`
steps for some child. -/
def GetContainedIn (grow : Nat → Nat) (order : List String) (ti : List typeInfo) (fuel : Nat) :
    Option (TypePair → Option (List String)) :=
  let v := readRecords ti
  (closureLoop grow v.link fuel order { result := v.result, heap := [] }).map State.table

/-! ## Vocabulary of the claims about the closure -/

/-- Shorthand for a `containedInPlace` record. -/
def edge (child parent : String) : typeInfo :=
  { Predicate := "containedInPlace", SubType := child, ObjType := parent }

/-- The direct containment relation of the input. -/
def Edge (ti : List typeInfo) (d a : String) : Prop :=
  ∃ info ∈ ti, info.Predicate = "containedInPlace" ∧ info.SubType = d ∧ info.ObjType = a

instance (ti : List typeInfo) (d a : String) : Decidable (Edge ti d a) := by
  unfold Edge
  infer_instance

/-- Reachability through one or more containment edges. -/
def Reach (ti : List typeInfo) : String → String → Prop :=
  Relation.TransGen (Edge ti)

/-- No type reaches itself. -/
def Acyclic (ti : List typeInfo) : Prop := ∀ x, ¬ Reach ti x x

/-- The parent relation of an adjacency map: `p` is listed under `x`. -/
def Par (link : String → List String) (x p : String) : Prop := p ∈ link x

/-- The edge list `(t0,t1), (t1,t2), ..., (t(n-1),tn)` of the chain `t0, ..., tn`. -/
def chainEdges : List String → List typeInfo
  | a :: b :: rest => edge a b :: chainEdges (b :: rest)
  | _ => []

/-- The state in which the loop over the children starts: the entries of the
direct edges, all empty, and no backing array. -/
def startState (ti : List typeInfo) : State :=
  { result := (readRecords ti).result, heap := [] }

/-- The table computed by the traversal of the single child `c`, started right
after the first loop. -/
def childTable (grow : Nat → Nat) (ti : List typeInfo) (c : String) (fuel : Nat) :
    Option (TypePair → Option (List String)) :=
  (traverse grow (readRecords ti).link c fuel ((readRecords ti).link c) (startState ti)).map
    State.table

/-! ## Invariants of the heap used in the proofs -/

/-- A slice header is consistent with the heap: its length is within its
capacity and, when it has capacity, its backing array exists and has that
capacity. -/
def SliceOk (h : Heap) (s : Slice) : Prop :=
  s.len ≤ s.cap ∧ (0 < s.cap → s.arr < h.length ∧ (h.getD s.arr []).length = s.cap)

/-- Every slice stored in `result` is consistent with the heap. -/
def WF (st : State) : Prop := ∀ k s, st.result k = some s → SliceOk st.heap s

/-- Two slice headers that denote the same slice up to a shift of the array index. -/
def SliceRel (off : Nat) (a b : Slice) : Prop :=
  a.len = b.len ∧ a.cap = b.cap ∧ b.len ≤ b.cap ∧ (0 < b.cap → a.arr = b.arr + off)

/-- State `A` (on a heap that extends `H`) simulates state `B` on the keys of child `c`. -/
def Sim (H : Heap) (c : String) (A B : State) : Prop :=
  A.heap = H ++ B.heap ∧
  ∀ y, (A.result { Child := c, Parent := y } = none ∧ B.result { Child := c, Parent := y } = none) ∨
    ∃ a b, A.result { Child := c, Parent := y } = some a ∧
      B.result { Child := c, Parent := y } = some b ∧ SliceRel H.length a b

/-- Slice `b` is the longest slice stored on its backing array. -/
def Tip (st : State) (b : Slice) : Prop :=
  ∀ k s, st.result k = some s → 0 < s.cap → s.arr = b.arr → s.len ≤ b.len

/-- The adjacency map restricted to the list is a chain: every element has the
next one as its only parent, and the last has none. -/
def LinkChain (link : String → List String) : List String → Prop
  | [] => True
  | [x] => link x = []
  | x :: y :: rest => link x = [y] ∧ LinkChain link (y :: rest)

/-- Every entry of `result` holds the intermediate chain of a path of the input:
for the key `(d, a)` with value `[i1, ..., ik]` the pairs `d → i1`, `i1 → i2`,
..., `ik → a` are direct edges; every stored slice is full. -/
def PathInv (ti : List typeInfo) (st : State) : Prop :=
  WF st ∧ (∀ k s, st.result k = some s → s.len = s.cap) ∧
    ∀ k s, st.result k = some s →
      List.Chain (Edge ti) k.Child (s.read st.heap ++ [k.Parent])

/-! ## Concrete inputs -/

/-- The example of the specification: City → County → State. -/
def cityEdges : List typeInfo := [edge "City" "County", edge "County" "State"]

/-- A direct edge `A → C` next to the longer path `A → B → C`. -/
def triangleEdges : List typeInfo := [edge "A" "B", edge "B" "C", edge "A" "C"]

/-- The two-cycle `A → B → A`. -/
def cycleEdges : List typeInfo := [edge "A" "B", edge "B" "A"]

/-- The diamond `A → B → D`, `A → C → D`. -/
def diamondEdges : List typeInfo := [edge "A" "B", edge "A" "C", edge "B" "D", edge "C" "D"]

/-- A tree: the chain `n0 → n1 → ... → n6`, then `n6 → k1 → m1` and `n6 → k2 → m2`. -/
def deepTree : List typeInfo :=
  [edge "n0" "n1", edge "n1" "n2", edge "n2" "n3", edge "n3" "n4", edge "n4" "n5", edge "n5" "n6",
   edge "n6" "k1", edge "n6" "k2", edge "k1" "m1", edge "k2" "m2"]

/-! ## `BigTableReadRowsParallel` (util.go, lines 254-317)

The goroutines of the `errgroup` only interact through the channel `rowChan`
and the error kept by the group.  Nobody receives from `rowChan` before
`errs.Wait()` has returned, so a run is determined by the order in which the
tasks finish (`sched`) and by what the store answers to each request
(`ReadRows`), and it blocks for ever as soon as one task has to send on a full
channel. -/

/-- The constant `BtBatchQuerySize` (line 66). -/
def BtBatchQuerySize : Nat := 1000

/-- A `bigtable.RowRange`: a contiguous interval of row keys. -/
structure RowRange where
  start : String
  limit : String
deriving DecidableEq, Repr

/-- The dynamic types a `bigtable.RowSet` value can have: the two list types the
function accepts, a single `RowRange`, and the nil interface value. -/
inductive RowSet where
  | RowList (keys : List String)
  | RowRangeList (ranges : List RowRange)
  | RowRange (r : RowRange)
  | nil
deriving DecidableEq, Repr

/-- A Go `error` value, by its message. -/
abbrev Error := String

/-- The slice expression `xs[left:right]`; `none` is the run-time panic "slice
bounds out of range".  The bound is checked against the length, which is at
most the capacity Go checks against. -/
def goSlice {α : Type} (xs : List α) (left right : Nat) : Option (List α) :=
  if left ≤ right ∧ right ≤ xs.length then some ((xs.take right).drop left) else none

/-- The type switch of lines 262-271: the variables `rowList`, `rowRangeList`
and `rowSetSize`, or `none` in the `default` case. -/
def switchRowSet : RowSet → Option (List String × List RowRange × Nat)
  | RowSet.RowList keys => some (keys, [], keys.length)
  | RowSet.RowRangeList ranges => some ([], ranges, ranges.length)
  | _ => none

/-- The variable `left` of iteration `i` (line 276). -/
def batchLeft (i : Nat) : Nat := i * BtBatchQuerySize

/-- The variable `right` of iteration `i` (lines 277-280). -/
def batchRight (rowSetSize i : Nat) : Nat :=
  if (i + 1) * BtBatchQuerySize > rowSetSize then rowSetSize else (i + 1) * BtBatchQuerySize

/-- The variable `rowSetPart` of iteration `i` (lines 281-286). -/
def rowSetPart (rowList : List String) (rowRangeList : List RowRange) (rowSetSize i : Nat) :
    Option RowSet :=
  if rowList.length > 0 then
    (goSlice rowList (batchLeft i) (batchRight rowSetSize i)).map RowSet.RowList
  else
    (goSlice rowRangeList (batchLeft i) (batchRight rowSetSize i)).map RowSet.RowRangeList

/-- The batches built by the loop `for i := 0; i <= rowSetSize/BtBatchQuerySize; i++`
(line 275), one per task handed to `errs.Go`. -/
def batches (rowList : List String) (rowRangeList : List RowRange) (rowSetSize : Nat) :
    Option (List RowSet) :=
  (List.range (rowSetSize / BtBatchQuerySize + 1)).mapM (rowSetPart rowList rowRangeList rowSetSize)

/-- The batches for which a retrieval task is spawned: none when the `RowSet`
is rejected by the type switch. -/
def spawnedBatches (rowSet : RowSet) : Option (List RowSet) :=
  match switchRowSet rowSet with
  | none => some []
  | some (rowList, rowRangeList, rowSetSize) => batches rowList rowRangeList rowSetSize

/-- The capacity of `rowChan` (line 274). -/
def chanCapacity (rowSetSize : Nat) : Nat := rowSetSize

/-- The keys or ranges a `RowSet` asks for, in order. -/
def RowSet.entries : RowSet → List (String ⊕ Mixer.RowRange)
  | RowSet.RowList keys => keys.map Sum.inl
  | RowSet.RowRangeList ranges => ranges.map Sum.inr
  | RowSet.RowRange r => [Sum.inr r]
  | RowSet.nil => []

/-- How a call of `BigTableReadRowsParallel` ends. -/
inductive Outcome (Row : Type) where
  /-- The call returned `err`, having invoked the visitor on `visited`, in this order. -/
  | returned (err : Option Error) (visited : List Row)
  /-- `errs.Wait()` never returns: a task is stuck sending on the full channel. -/
  | blocked
  /-- A slice expression was out of range. -/
  | panicked
deriving DecidableEq, Repr

/-- The tasks of the group in the order in which they finish (lines 288-299):
a failed request sets the group's error if it is the first, a successful one
sends its rows on `rowChan`, which has room for `capacity` buffers.  `none`
when a send has to wait. -/
def runTasks {Row : Type} (capacity : Nat) :
    List (Except Error (List Row)) → List (List Row) → Option Error →
      Option (Option Error × List (List Row))
  | [], chan, err => some (err, chan)
  | Except.error e :: rest, chan, err =>
    runTasks capacity rest chan (match err with | some e0 => some e0 | none => some e)
  | Except.ok rows :: rest, chan, err =>
    if chan.length < capacity then runTasks capacity rest (chan ++ [rows]) err else none

/-- The inner loop of lines 309-313 over the rows of one buffer: the error
that stopped it, if any, and the rows the visitor was invoked on. -/
def visitRows {Row : Type} (action : Row → Option Error) : List Row → Option Error × List Row
  | [] => (none, [])
  | row :: rest =>
    match action row with
    | some e => (some e, [row])
    | none => ((visitRows action rest).1, row :: (visitRows action rest).2)

/-- The loop `for rows := range rowChan` of lines 308-314. -/
def drainChan {Row : Type} (action : Row → Option Error) : List (List Row) → Option Error × List Row
  | [] => (none, [])
  | rows :: more =>
    match visitRows action rows with
    | (some e, visited) => (some e, visited)
    | (none, visited) => ((drainChan action more).1, visited ++ (drainChan action more).2)

/-- `BigTableReadRowsParallel`.  `ReadRows i part` is the answer of the store to
the request of task `i` for the batch `part` (the rows it passes to the
callback, or its error; a request cut short by the cancellation of the group's
context is an error answer); `action` is the visitor; `sched` lists the tasks in
the order in which they finish. -/
def BigTableReadRowsParallel {Row : Type} (ReadRows : Nat → RowSet → Except Error (List Row))
    (action : Row → Option Error) (sched : List Nat) (rowSet : RowSet) : Outcome Row :=
  match switchRowSet rowSet with
  | none => Outcome.returned (some "unsupported RowSet type") []
  | some (rowList, rowRangeList, rowSetSize) =>
    match batches rowList rowRangeList rowSetSize with
    | none => Outcome.panicked
    | some parts =>
      let answers := (List.range parts.length).zipWith ReadRows parts
      let finished := sched.filterMap (fun i => answers[i]?)
      match runTasks (chanCapacity rowSetSize) finished [] none with
      | none => Outcome.blocked
      | some (some e, _) => Outcome.returned (some e) []
      | some (none, chan) =>
        Outcome.returned (drainChan action chan).1 (drainChan action chan).2

/-- The contiguous slices `xs[0:1000], xs[1000:2000], ...` the loop of line 275
cuts a list into: one for every `i` up to and including `xs.length / 1000`. -/
def chunks {α : Type} (xs : List α) : List (List α) :=
  (List.range (xs.length / BtBatchQuerySize + 1)).map
    (fun i => (xs.take (batchRight xs.length i)).drop (batchLeft i))

/-- The rows of an answer of the store. -/
def rowsOf {Row : Type} : Except Error (List Row) → List Row
  | Except.ok rows => rows
  | Except.error _ => []

/-- What C7 says of one accepted `RowSet` with `rowSetSize` entries. -/
def PartitionOk (rowSet : RowSet) (rowSetSize : Nat) : Prop :=
  ∃ parts, spawnedBatches rowSet = some parts ∧
    (parts.map RowSet.entries).flatten = rowSet.entries ∧
    (∀ i (_ : i < parts.length),
      parts[i].entries = (rowSet.entries.take (batchRight rowSetSize i)).drop (batchLeft i)) ∧
    ∀ i, i ≤ rowSetSize / BtBatchQuerySize →
      batchLeft i ≤ batchRight rowSetSize i ∧ batchRight rowSetSize i ≤ rowSetSize

/-! ## `GetContainedIn` from the file on (util.go, lines 169-177) -/

/-- `GetContainedIn` from its first line on (lines 169-177, then the loops).
`ReadFile` is what `ioutil.ReadFile` returns for the path; `Unmarshal content`
is what `json.Unmarshal` leaves in `ti`, together with the error it returns,
which line 176 drops.  The result is the pair `(table, error)` handed to the
caller, or `none` when the traversal runs out of fuel. -/
def GetContainedInFile (ReadFile : Except Error String)
    (Unmarshal : String → List typeInfo × Option Error) (grow : Nat → Nat) (order : List String)
    (fuel : Nat) : Option (Except Error (TypePair → Option (List String))) :=
  match ReadFile with
  | Except.error e => some (Except.error e)
  | Except.ok typeRelationJSON =>
    (GetContainedIn grow order (Unmarshal typeRelationJSON).1 fuel).map Except.ok

/-- A file whose second record has a number where a string is expected. -/
def badTypeJSON : String :=
  "[\x7b\"predicate\":\"containedInPlace\",\"subType\":\"City\",\"objType\":\"County\"\x7d,\x7b\"predicate\":5\x7d]"

/-- What `json.Unmarshal` does with `badTypeJSON`: it decodes what it can, skips
the field it cannot decode, and reports the type error. -/
def badTypeUnmarshal (_ : String) : List typeInfo × Option Error :=
  ([edge "City" "County", { Predicate := "", SubType := "", ObjType := "" }],
    some "json: cannot unmarshal number into Go struct field typeInfo.predicate of type string")

/-! ## `GetProjectID` (util.go, lines 86-102)

Go strings are sequences of bytes; the only bytes the function looks for are
those of `"google.com:"` and `"."`, all ASCII, so a string is read as its list
of characters. -/

/-- The constant `BqPrefix` (line 38). -/
def BqPrefix : String := "google.com:"

/-- The parts of `s` before and after the first occurrence of the non-empty
`sep`, if there is one (`strings.Index`). -/
def cutFirst (sep : List Char) : List Char → Option (List Char × List Char)
  | [] => none
  | c :: rest =>
    if sep.isPrefixOf (c :: rest) then some ([], (c :: rest).drop sep.length)
    else (cutFirst sep rest).map (fun p => (c :: p.1, p.2))

/-- `strings.HasPrefix(s, pre)`. -/
def strings.HasPrefix (s pre : String) : Bool := pre.data.isPrefixOf s.data

/-- `strings.Replace(s, old, new, n)` for a non-empty `old` and `n ≥ 0`: the
first `n` occurrences of `old` are replaced by `new`. -/
def strings.Replace (s old new : String) : Nat → String
  | 0 => s
  | n + 1 =>
    match cutFirst old.data s.data with
    | none => s
    | some (before, after) =>
      String.mk before ++ new ++ strings.Replace (String.mk after) old new n

/-- `strings.SplitN(s, sep, n)` for a non-empty `sep` and `n ≥ 0`: at most `n`
substrings, the last being the unsplit remainder. -/
def strings.SplitN (s sep : String) : Nat → List String
  | 0 => []
  | 1 => [s]
  | n + 2 =>
    match cutFirst sep.data s.data with
    | none => [s]
    | some (before, after) => String.mk before :: strings.SplitN (String.mk after) sep (n + 1)

/-- A gRPC status error: `status.Errorf(code, format, args)`. -/
structure StatusError where
  code : String
  message : String
deriving DecidableEq, Repr

/-- The error of lines 91-92 and 98-99. -/
def badDatabaseName (db : String) : StatusError :=
  { code := "InvalidArgument", message := "Bad bigquery database name " ++ db }

/-- `GetProjectID`: the project id and the error it returns. -/
def GetProjectID (db : String) : String × Option StatusError :=
  if strings.HasPrefix db BqPrefix then
    match strings.SplitN (strings.Replace db BqPrefix "" 1) "." 2 with
    | [part0, _] => (BqPrefix ++ part0, none)
    | _ => ("", some (badDatabaseName db))
  else
    match strings.SplitN db "." 2 with
    | [part0, _] => (part0, none)
    | _ => ("", some (badDatabaseName db))

/-- What the claim says `GetProjectID` returns, case by case and in the claim's
own literals: the project id, and the code of the error when there is one.
`r` is the rest of `db` after the prefix `"google.com:"`. -/
def GetProjectIDSpec (db : String) : String × Option String :=
  if "google.com:".data <+: db.data then
    let r := db.data.drop "google.com:".data.length
    if '.' ∈ r then (String.mk ("google.com:".data ++ r.takeWhile (· ≠ '.')), none)
    else ("", some "InvalidArgument")
  else if '.' ∈ db.data then (String.mk (db.data.takeWhile (· ≠ '.')), none)
  else ("", some "InvalidArgument")

/-! ## The first loop -/

theorem foldl_recordStep_link (ti : List typeInfo) (v : Vars) (x : String) :
    (ti.foldl recordStep v).link x = v.link x ++
      (ti.filter (fun i => decide (i.Predicate = "containedInPlace" ∧ i.SubType = x))).map
        (fun i => i.ObjType) := by
  induction ti generalizing v with
  | nil => simp
  | cons info rest ih =>
    rw [List.foldl_cons, ih]
    by_cases hp : info.Predicate = "containedInPlace"
    · by_cases hx : info.SubType = x
      · subst hx
        simp [recordStep, hp, mapSet, List.filter_cons]
      · have hx' : ¬ x = info.SubType := fun h => hx h.symm
        simp [recordStep, hp, mapSet, List.filter_cons, hx, hx']
    · simp [recordStep, hp, List.filter_cons]

theorem readRecords_link (ti : List typeInfo) (x : String) :
    (readRecords ti).link x =
      (ti.filter (fun i => decide (i.Predicate = "containedInPlace" ∧ i.SubType = x))).map
        (fun i => i.ObjType) := by
  simp [readRecords, foldl_recordStep_link, Vars.init]

theorem mem_readRecords_link (ti : List typeInfo) (x p : String) :
    p ∈ (readRecords ti).link x ↔ Edge ti x p := by
  rw [readRecords_link]
  simp only [List.mem_map, List.mem_filter, decide_eq_true_eq, Edge]
  constructor
  · rintro ⟨i, ⟨hi, hp, hs⟩, ho⟩
    exact ⟨i, hi, hp, hs, ho⟩
  · rintro ⟨i, hi, hp, hs, ho⟩
    exact ⟨i, ⟨hi, hp, hs⟩, ho⟩

theorem foldl_recordStep_result (ti : List typeInfo) (v : Vars) (k : TypePair) :
    (ti.foldl recordStep v).result k =
      if ti.any (fun i => decide (i.Predicate = "containedInPlace" ∧ i.SubType = k.Child ∧
          i.ObjType = k.Parent)) then some emptySlice else v.result k := by
  induction ti generalizing v with
  | nil => simp
  | cons info rest ih =>
    rw [List.foldl_cons, ih]
    by_cases hrest : rest.any (fun i => decide (i.Predicate = "containedInPlace" ∧
        i.SubType = k.Child ∧ i.ObjType = k.Parent)) = true
    · rw [if_pos hrest, if_pos]
      rw [List.any_cons, hrest, Bool.or_true]
    · have hany : (info :: rest).any (fun i => decide (i.Predicate = "containedInPlace" ∧
          i.SubType = k.Child ∧ i.ObjType = k.Parent)) = decide (info.Predicate =
          "containedInPlace" ∧ info.SubType = k.Child ∧ info.ObjType = k.Parent) := by
        rw [List.any_cons]
        simp only [Bool.not_eq_true] at hrest
        rw [hrest, Bool.or_false]
      rw [if_neg hrest, hany]
      by_cases hp : info.Predicate = "containedInPlace"
      · by_cases hk : k = { Child := info.SubType, Parent := info.ObjType }
        · subst hk
          simp [recordStep, hp, mapSet]
        · have hk' : ¬ (info.SubType = k.Child ∧ info.ObjType = k.Parent) := by
            rintro ⟨h1, h2⟩
            apply hk
            cases k
            simp_all
          simp [recordStep, hp, mapSet, hk, hk']
      · simp [recordStep, hp]

theorem readRecords_result (ti : List typeInfo) (k : TypePair) :
    (readRecords ti).result k =
      if ti.any (fun i => decide (i.Predicate = "containedInPlace" ∧ i.SubType = k.Child ∧
          i.ObjType = k.Parent)) then some emptySlice else none := by
  simp [readRecords, foldl_recordStep_result, Vars.init]

theorem readRecords_result_of_edge {ti : List typeInfo} {d a : String} (h : Edge ti d a) :
    (readRecords ti).result { Child := d, Parent := a } = some emptySlice := by
  rw [readRecords_result, if_pos]
  obtain ⟨i, hi, hp, hs, ho⟩ := h
  simp only [List.any_eq_true, decide_eq_true_eq]
  exact ⟨i, hi, hp, hs, ho⟩

theorem readRecords_result_of_not_edge {ti : List typeInfo} {d a : String} (h : ¬ Edge ti d a) :
    (readRecords ti).result { Child := d, Parent := a } = none := by
  rw [readRecords_result, if_neg]
  simp only [List.any_eq_true, decide_eq_true_eq]
  rintro ⟨i, hi, hp, hs, ho⟩
  exact h ⟨i, hi, hp, hs, ho⟩

theorem mem_linkKeys (ti : List typeInfo) (x : String) :
    x ∈ linkKeys ti ↔ ∃ p, Edge ti x p := by
  simp only [linkKeys, List.mem_dedup, List.mem_map, List.mem_filter, decide_eq_true_eq, Edge]
  constructor
  · rintro ⟨i, ⟨hi, hp⟩, hs⟩
    exact ⟨i.ObjType, i, hi, hp, hs, rfl⟩
  · rintro ⟨p, i, hi, hp, hs, _⟩
    exact ⟨i, ⟨hi, hp⟩, hs⟩

theorem nodup_linkKeys (ti : List typeInfo) : (linkKeys ti).Nodup := List.nodup_dedup _

/-! ## Keys written by the traversal -/

theorem par_readRecords (ti : List typeInfo) : Par (readRecords ti).link = Edge ti := by
  funext x p
  exact propext (mem_readRecords_link ti x p)

theorem foldl_parentStep_snd (grow : Nat → Nat) (c curr : String) (ps : List String)
    (st : State) (q : List String) :
    (ps.foldl (parentStep grow c curr) (st, q)).2 = q ++ ps := by
  induction ps generalizing st q with
  | nil => simp
  | cons p ps ih =>
    rw [List.foldl_cons]
    simp only [parentStep]
    rw [ih]
    simp

theorem foldl_parentStep_result_of_ne (grow : Nat → Nat) (c curr : String) (ps : List String)
    (st : State) (q : List String) (k : TypePair)
    (hk : ∀ p ∈ ps, k ≠ { Child := c, Parent := p }) :
    (ps.foldl (parentStep grow c curr) (st, q)).1.result k = st.result k := by
  induction ps generalizing st q with
  | nil => simp
  | cons p ps ih =>
    rw [List.foldl_cons]
    simp only [parentStep]
    rw [ih _ _ (fun p' hp' => hk p' (List.mem_cons_of_mem _ hp'))]
    simp [mapSet, hk p (List.mem_cons_self _ _)]

theorem foldl_parentStep_isSome_mono (grow : Nat → Nat) (c curr : String) (ps : List String)
    (st : State) (q : List String) (k : TypePair) (hk : (st.result k).isSome) :
    ((ps.foldl (parentStep grow c curr) (st, q)).1.result k).isSome := by
  induction ps generalizing st q with
  | nil => simpa using hk
  | cons p ps ih =>
    rw [List.foldl_cons]
    apply ih
    simp only [parentStep, mapSet]
    split
    · rfl
    · exact hk

theorem foldl_parentStep_isSome (grow : Nat → Nat) (c curr : String) (ps : List String)
    (st : State) (q : List String) (p : String) (hp : p ∈ ps) :
    ((ps.foldl (parentStep grow c curr) (st, q)).1.result { Child := c, Parent := p }).isSome := by
  induction ps generalizing st q with
  | nil => simp at hp
  | cons p' ps ih =>
    rw [List.foldl_cons]
    by_cases hmem : p ∈ ps
    · exact ih _ _ hmem
    · have hpp : p = p' := by
        rcases List.mem_cons.1 hp with h | h
        · exact h
        · exact absurd h hmem
      subst hpp
      apply foldl_parentStep_isSome_mono
      simp [parentStep, mapSet]

theorem traverse_nil (grow : Nat → Nat) (link : String → List String) (c : String) (n : Nat)
    (st : State) : traverse grow link c n [] st = some st := by
  cases n <;> rfl

theorem traverse_succ_cons (grow : Nat → Nat) (link : String → List String) (c : String)
    (n : Nat) (curr : String) (morep : List String) (st : State) :
    traverse grow link c (n + 1) (curr :: morep) st =
      traverse grow link c n (morep ++ link curr)
        ((link curr).foldl (parentStep grow c curr) (st, morep)).1 := by
  simp only [traverse]
  rw [foldl_parentStep_snd]

theorem traverse_isSome_mono (grow : Nat → Nat) (link : String → List String) (c : String)
    (n : Nat) (ws : List String) (st r : State) (k : TypePair)
    (h : traverse grow link c n ws st = some r) (hk : (st.result k).isSome) :
    (r.result k).isSome := by
  induction n generalizing ws st with
  | zero =>
    cases ws with
    | nil => rw [traverse_nil] at h; cases h; exact hk
    | cons x rest => simp [traverse] at h
  | succ n ih =>
    cases ws with
    | nil => rw [traverse_nil] at h; cases h; exact hk
    | cons x rest =>
      rw [traverse_succ_cons] at h
      exact ih _ _ h (foldl_parentStep_isSome_mono _ _ _ _ _ _ _ hk)

/-- Completeness of the traversal: every type reachable from the work list gets a key. -/
theorem traverse_complete (grow : Nat → Nat) (link : String → List String) (c : String)
    (n : Nat) (ws : List String) (st r : State)
    (h : traverse grow link c n ws st = some r) (x : String) (hx : x ∈ ws) (y : String)
    (hxy : Relation.TransGen (Par link) x y) :
    (r.result { Child := c, Parent := y }).isSome := by
  induction n generalizing ws st x with
  | zero =>
    cases ws with
    | nil => simp at hx
    | cons x rest => simp [traverse] at h
  | succ n ih =>
    cases ws with
    | nil => simp at hx
    | cons x0 rest =>
      rw [traverse_succ_cons] at h
      rcases List.mem_cons.1 hx with hx0 | hrest
      · subst hx0
        obtain ⟨p, hp, hpy⟩ := Relation.TransGen.head'_iff.1 hxy
        rcases Relation.reflTransGen_iff_eq_or_transGen.1 hpy with heq | htr
        · subst heq
          exact traverse_isSome_mono _ _ _ _ _ _ _ _ h (foldl_parentStep_isSome _ _ _ _ _ _ _ hp)
        · exact ih _ _ h p (List.mem_append_right _ hp) htr
      · exact ih _ _ h x (List.mem_append_left _ hrest) hxy

/-- Frame of the traversal: a key is only touched when its child is `c` and its
parent is reachable from the work list. -/
theorem traverse_frame (grow : Nat → Nat) (link : String → List String) (c : String)
    (n : Nat) (ws : List String) (st r : State)
    (h : traverse grow link c n ws st = some r) (k : TypePair)
    (hk : ¬ (k.Child = c ∧ ∃ x ∈ ws, Relation.TransGen (Par link) x k.Parent)) :
    r.result k = st.result k := by
  induction n generalizing ws st with
  | zero =>
    cases ws with
    | nil => rw [traverse_nil] at h; cases h; rfl
    | cons x rest => simp [traverse] at h
  | succ n ih =>
    cases ws with
    | nil => rw [traverse_nil] at h; cases h; rfl
    | cons x0 rest =>
      rw [traverse_succ_cons] at h
      rw [ih _ _ h]
      · apply foldl_parentStep_result_of_ne
        rintro p hp rfl
        exact hk ⟨rfl, x0, List.mem_cons_self _ _, Relation.TransGen.single hp⟩
      · rintro ⟨hc, x, hx, hxy⟩
        apply hk
        refine ⟨hc, ?_⟩
        rcases List.mem_append.1 hx with hx | hx
        · exact ⟨x, List.mem_cons_of_mem _ hx, hxy⟩
        · exact ⟨x0, List.mem_cons_self _ _, Relation.TransGen.head hx hxy⟩

/-! ## Termination of the work-list loop -/

theorem traverse_fuel_succ (grow : Nat → Nat) (link : String → List String) (c : String)
    (n : Nat) (ws : List String) (st r : State)
    (h : traverse grow link c n ws st = some r) :
    traverse grow link c (n + 1) ws st = some r := by
  induction n generalizing ws st with
  | zero =>
    cases ws with
    | nil => rw [traverse_nil] at h ⊢; exact h
    | cons x rest => simp [traverse] at h
  | succ n ih =>
    cases ws with
    | nil => rw [traverse_nil] at h ⊢; exact h
    | cons x rest =>
      rw [traverse_succ_cons] at h ⊢
      exact ih _ _ h

theorem traverse_fuel_mono (grow : Nat → Nat) (link : String → List String) (c : String)
    (n m : Nat) (hnm : n ≤ m) (ws : List String) (st r : State)
    (h : traverse grow link c n ws st = some r) :
    traverse grow link c m ws st = some r := by
  induction hnm with
  | refl => exact h
  | step _ ih => exact traverse_fuel_succ _ _ _ _ _ _ _ ih

/-- In a finite acyclic graph the parent relation is well founded. -/
theorem wf_of_acyclic (link : String → List String) (keys : List String)
    (hkeys : ∀ x, link x ≠ [] → x ∈ keys)
    (hac : ∀ x, ¬ Relation.TransGen (Par link) x x) :
    WellFounded (fun p x => Par link x p) := by
  let r' : {x // x ∈ keys} → {x // x ∈ keys} → Prop :=
    fun a b => Relation.TransGen (Par link) b.1 a.1
  haveI : IsTrans {x // x ∈ keys} r' := ⟨fun a b c hab hbc => Relation.TransGen.trans hbc hab⟩
  haveI : IsIrrefl {x // x ∈ keys} r' := ⟨fun a h => hac a.1 h⟩
  have hwf : WellFounded r' := Finite.wellFounded_of_trans_of_irrefl r'
  have hleaf : ∀ q, link q = [] → Acc (fun p x => Par link x p) q := by
    intro q hq
    constructor
    intro z hz
    simp [Par, hq] at hz
  have hkey : ∀ a : {x // x ∈ keys}, Acc (fun p x => Par link x p) a.1 := by
    intro a
    induction a using hwf.induction with
    | _ a ih =>
      constructor
      intro q hq
      by_cases hl : link q = []
      · exact hleaf q hl
      · exact ih ⟨q, hkeys q hl⟩ (Relation.TransGen.single hq)
  constructor
  intro x
  by_cases hl : link x = []
  · exact hleaf x hl
  · exact hkey ⟨x, hkeys x hl⟩

/-- A well-founded parent relation admits a count of the walks leaving a type:
`W x = 1 + Σ W p` over the parents `p` of `x`. -/
theorem exists_walks (link : String → List String)
    (hwf : WellFounded (fun p x => Par link x p)) :
    ∃ W : String → Nat, ∀ x, W x = 1 + ((link x).map W).sum := by
  refine ⟨hwf.fix (fun x ih => 1 + ((link x).attach.map (fun p => ih p.1 p.2)).sum), ?_⟩
  intro x
  rw [WellFounded.fix_eq]
  congr 1
  rw [← List.attach_map_coe (link x) (hwf.fix (fun x ih =>
    1 + ((link x).attach.map (fun p => ih p.1 p.2)).sum))]

theorem traverse_terminates (grow : Nat → Nat) (link : String → List String) (c : String)
    (W : String → Nat) (hW : ∀ x, W x = 1 + ((link x).map W).sum)
    (n : Nat) (ws : List String) (st : State) (hn : (ws.map W).sum ≤ n) :
    ∃ r, traverse grow link c n ws st = some r := by
  induction n generalizing ws st with
  | zero =>
    cases ws with
    | nil => exact ⟨st, traverse_nil _ _ _ _ _⟩
    | cons x rest =>
      rw [List.map_cons, List.sum_cons, hW x] at hn
      omega
  | succ n ih =>
    cases ws with
    | nil => exact ⟨st, traverse_nil _ _ _ _ _⟩
    | cons x rest =>
      rw [traverse_succ_cons]
      apply ih
      rw [List.map_cons, List.sum_cons, hW x] at hn
      rw [List.map_append, List.sum_append]
      omega

/-! ## A terminating traversal has seen no cycle -/

theorem traverse_descend_step (grow : Nat → Nat) (link : String → List String) (c : String)
    (n : Nat) (ws : List String) (st r : State)
    (h : traverse grow link c n ws st = some r) (x : String) (hx : x ∈ ws) (p : String)
    (hp : Par link x p) :
    ∃ m, m < n ∧ ∃ ws' st', p ∈ ws' ∧ traverse grow link c m ws' st' = some r := by
  induction n generalizing ws st x with
  | zero =>
    cases ws with
    | nil => simp at hx
    | cons x rest => simp [traverse] at h
  | succ n ih =>
    cases ws with
    | nil => simp at hx
    | cons x0 rest =>
      rw [traverse_succ_cons] at h
      rcases List.mem_cons.1 hx with hx0 | hrest
      · subst hx0
        exact ⟨n, Nat.lt_succ_self n, _, _, List.mem_append_right _ hp, h⟩
      · obtain ⟨m, hm, ws', st', hmem, hrun⟩ := ih _ _ h x (List.mem_append_left _ hrest) hp
        exact ⟨m, Nat.lt_succ_of_lt hm, ws', st', hmem, hrun⟩

theorem traverse_descend (grow : Nat → Nat) (link : String → List String) (c : String)
    (r : State) (x y : String) (hxy : Relation.TransGen (Par link) x y) :
    ∀ (n : Nat) (ws : List String) (st : State), traverse grow link c n ws st = some r → x ∈ ws →
      ∃ m, m < n ∧ ∃ ws' st', y ∈ ws' ∧ traverse grow link c m ws' st' = some r := by
  induction hxy with
  | single hp =>
    intro n ws st h hx
    exact traverse_descend_step _ _ _ _ _ _ _ h x hx _ hp
  | tail _ hp ih =>
    intro n ws st h hx
    obtain ⟨m, hm, ws', st', hmem, hrun⟩ := ih n ws st h hx
    obtain ⟨m', hm', ws'', st'', hmem', hrun'⟩ :=
      traverse_descend_step _ _ _ _ _ _ _ hrun _ hmem _ hp
    exact ⟨m', Nat.lt_trans hm' hm, ws'', st'', hmem', hrun'⟩

/-- If the work-list loop returns, no type of the work list lies on a cycle. -/
theorem traverse_no_cycle (grow : Nat → Nat) (link : String → List String) (c : String)
    (n : Nat) (ws : List String) (st r : State)
    (h : traverse grow link c n ws st = some r) (x : String) (hx : x ∈ ws) :
    ¬ Relation.TransGen (Par link) x x := by
  induction n using Nat.strong_induction_on generalizing ws st with
  | _ n ih =>
    intro hcyc
    obtain ⟨m, hm, ws', st', hmem, hrun⟩ := traverse_descend grow link c r x x hcyc n ws st h hx
    exact ih m hm ws' st' hrun hmem hcyc

/-! ## The loop over the children -/

theorem closureLoop_cons (grow : Nat → Nat) (link : String → List String) (fuel : Nat)
    (c : String) (cs : List String) (st r : State) :
    closureLoop grow link fuel (c :: cs) st = some r ↔
      ∃ st', traverse grow link c fuel (link c) st = some st' ∧
        closureLoop grow link fuel cs st' = some r := by
  simp only [closureLoop]
  cases traverse grow link c fuel (link c) st with
  | none => simp
  | some st' => simp

theorem closureLoop_terminates (grow : Nat → Nat) (link : String → List String)
    (W : String → Nat) (hW : ∀ x, W x = 1 + ((link x).map W).sum) (fuel : Nat)
    (order : List String) (hfuel : ∀ c ∈ order, ((link c).map W).sum ≤ fuel) (st : State) :
    ∃ r, closureLoop grow link fuel order st = some r := by
  induction order generalizing st with
  | nil => exact ⟨st, rfl⟩
  | cons c cs ih =>
    obtain ⟨st', hst'⟩ := traverse_terminates grow link c W hW fuel (link c) st
      (hfuel c (List.mem_cons_self _ _))
    obtain ⟨r, hr⟩ := ih (fun c' hc' => hfuel c' (List.mem_cons_of_mem _ hc')) st'
    exact ⟨r, (closureLoop_cons _ _ _ _ _ _ _).2 ⟨st', hst', hr⟩⟩

theorem closureLoop_fuel_mono (grow : Nat → Nat) (link : String → List String)
    (n m : Nat) (hnm : n ≤ m) (order : List String) (st r : State)
    (h : closureLoop grow link n order st = some r) :
    closureLoop grow link m order st = some r := by
  induction order generalizing st with
  | nil => simpa [closureLoop] using h
  | cons c cs ih =>
    obtain ⟨st', h1, h2⟩ := (closureLoop_cons _ _ _ _ _ _ _).1 h
    exact (closureLoop_cons _ _ _ _ _ _ _).2
      ⟨st', traverse_fuel_mono _ _ _ _ _ hnm _ _ _ h1, ih _ h2⟩

theorem closureLoop_isSome_mono (grow : Nat → Nat) (link : String → List String) (fuel : Nat)
    (order : List String) (st r : State) (h : closureLoop grow link fuel order st = some r)
    (k : TypePair) (hk : (st.result k).isSome) : (r.result k).isSome := by
  induction order generalizing st with
  | nil => simp only [closureLoop, Option.some.injEq] at h; subst h; exact hk
  | cons c cs ih =>
    obtain ⟨st', h1, h2⟩ := (closureLoop_cons _ _ _ _ _ _ _).1 h
    exact ih _ h2 (traverse_isSome_mono _ _ _ _ _ _ _ _ h1 hk)

theorem closureLoop_complete (grow : Nat → Nat) (link : String → List String) (fuel : Nat)
    (order : List String) (st r : State) (h : closureLoop grow link fuel order st = some r)
    (c : String) (hc : c ∈ order) (x : String) (hx : x ∈ link c) (y : String)
    (hxy : Relation.TransGen (Par link) x y) :
    (r.result { Child := c, Parent := y }).isSome := by
  induction order generalizing st with
  | nil => simp at hc
  | cons c' cs ih =>
    obtain ⟨st', h1, h2⟩ := (closureLoop_cons _ _ _ _ _ _ _).1 h
    rcases List.mem_cons.1 hc with hcc | hcs
    · subst hcc
      exact closureLoop_isSome_mono _ _ _ _ _ _ h2 _
        (traverse_complete _ _ _ _ _ _ _ h1 x hx y hxy)
    · exact ih _ h2 hcs

theorem closureLoop_frame (grow : Nat → Nat) (link : String → List String) (fuel : Nat)
    (order : List String) (st r : State) (h : closureLoop grow link fuel order st = some r)
    (k : TypePair)
    (hk : ¬ ∃ x ∈ link k.Child, Relation.TransGen (Par link) x k.Parent) :
    r.result k = st.result k := by
  induction order generalizing st with
  | nil => simp only [closureLoop, Option.some.injEq] at h; subst h; rfl
  | cons c cs ih =>
    obtain ⟨st', h1, h2⟩ := (closureLoop_cons _ _ _ _ _ _ _).1 h
    rw [ih _ h2]
    apply traverse_frame _ _ _ _ _ _ _ h1
    rintro ⟨hc, x, hx, hxy⟩
    subst hc
    exact hk ⟨x, hx, hxy⟩

theorem closureLoop_no_cycle (grow : Nat → Nat) (link : String → List String) (fuel : Nat)
    (order : List String) (st r : State) (h : closureLoop grow link fuel order st = some r)
    (c : String) (hc : c ∈ order) : ¬ Relation.TransGen (Par link) c c := by
  induction order generalizing st with
  | nil => simp at hc
  | cons c' cs ih =>
    obtain ⟨st', h1, h2⟩ := (closureLoop_cons _ _ _ _ _ _ _).1 h
    rcases List.mem_cons.1 hc with hcc | hcs
    · subst hcc
      intro hcyc
      obtain ⟨p, hp, hpc⟩ := Relation.TransGen.head'_iff.1 hcyc
      exact traverse_no_cycle _ _ _ _ _ _ _ h1 p hp
        (Relation.TransGen.trans_right hpc (Relation.TransGen.single hp))
    · exact ih _ h2 hcs

/-! ## Well-formed heaps -/

theorem heap_getD_set (h : Heap) (i j : Nat) (a : List String) :
    (h.set i a).getD j [] = if i = j ∧ i < h.length then a else h.getD j [] := by
  simp only [List.getD_eq_getElem?_getD, List.getElem?_set]
  by_cases hij : i = j
  · subst hij
    by_cases hi : i < h.length
    · simp [hi]
    · simp [hi, List.getElem?_eq_none (Nat.le_of_not_lt hi)]
  · simp [hij]

theorem sliceOk_emptySlice (h : Heap) : SliceOk h emptySlice := by
  simp [SliceOk, emptySlice]

theorem read_length {h : Heap} {s : Slice} (hs : SliceOk h s) : (s.read h).length = s.len := by
  unfold Slice.read
  rw [List.length_take]
  rcases Nat.eq_zero_or_pos s.cap with h0 | hpos
  · have := hs.1
    omega
  · have := (hs.2 hpos).2
    have := hs.1
    omega

theorem goAppend_sliceOk (grow : Nat → Nat) (h : Heap) (b : Slice) (v : String)
    (hb : SliceOk h b) : SliceOk (goAppend grow h b v).1 (goAppend grow h b v).2 := by
  unfold goAppend
  split
  · rename_i hlt
    have hpos : 0 < b.cap := by omega
    obtain ⟨harr, hlen⟩ := hb.2 hpos
    refine ⟨by simp only; omega, fun _ => ?_⟩
    simp only [List.length_set, heap_getD_set, harr, and_self, if_true]
    exact ⟨trivial, hlen⟩
  · rename_i hge
    refine ⟨by simp only; omega, fun _ => ?_⟩
    simp only [List.length_append, List.length_singleton]
    refine ⟨by omega, ?_⟩
    rw [List.getD_append_right _ _ _ _ (Nat.le_refl _)]
    simp only [Nat.sub_self, List.getD_cons_zero, List.length_append, List.length_singleton,
      List.length_replicate, read_length hb]
    omega

theorem goAppend_sliceOk_old (grow : Nat → Nat) (h : Heap) (b : Slice) (v : String)
    (s : Slice) (hs : SliceOk h s) : SliceOk (goAppend grow h b v).1 s := by
  unfold goAppend
  split
  · refine ⟨hs.1, fun hpos => ?_⟩
    obtain ⟨harr, hlen⟩ := hs.2 hpos
    simp only [List.length_set, heap_getD_set]
    refine ⟨harr, ?_⟩
    split
    · rename_i heq
      rw [List.length_set, heq.1, hlen]
    · exact hlen
  · refine ⟨hs.1, fun hpos => ?_⟩
    obtain ⟨harr, hlen⟩ := hs.2 hpos
    simp only [List.length_append, List.length_singleton]
    refine ⟨by omega, ?_⟩
    rw [List.getD_append _ _ _ _ harr]
    exact hlen

theorem parentStep_WF (grow : Nat → Nat) (c curr : String) (acc : State × List String)
    (p : String) (h : WF acc.1) : WF (parentStep grow c curr acc p).1 := by
  intro k s hks
  simp only [parentStep, mapSet] at hks ⊢
  have hbase : SliceOk acc.1.heap ((acc.1.result { Child := c, Parent := curr }).getD emptySlice) := by
    cases hres : acc.1.result { Child := c, Parent := curr } with
    | none => exact sliceOk_emptySlice _
    | some b => exact h _ _ hres
  split at hks
  · cases hks
    exact goAppend_sliceOk _ _ _ _ hbase
  · exact goAppend_sliceOk_old _ _ _ _ _ (h _ _ hks)

theorem foldl_parentStep_WF (grow : Nat → Nat) (c curr : String) (ps : List String)
    (acc : State × List String) (h : WF acc.1) :
    WF (ps.foldl (parentStep grow c curr) acc).1 := by
  induction ps generalizing acc with
  | nil => exact h
  | cons p ps ih => exact ih _ (parentStep_WF _ _ _ _ _ h)

theorem traverse_WF (grow : Nat → Nat) (link : String → List String) (c : String)
    (n : Nat) (ws : List String) (st r : State)
    (h : traverse grow link c n ws st = some r) (hwf : WF st) : WF r := by
  induction n generalizing ws st with
  | zero =>
    cases ws with
    | nil => rw [traverse_nil] at h; cases h; exact hwf
    | cons x rest => simp [traverse] at h
  | succ n ih =>
    cases ws with
    | nil => rw [traverse_nil] at h; cases h; exact hwf
    | cons x rest =>
      rw [traverse_succ_cons] at h
      exact ih _ _ h (foldl_parentStep_WF _ _ _ _ _ hwf)

/-! ## The traversal of one child is local

The traversal for `c` run in the middle of the loop (on a heap `H` left by the
other children) and the traversal for `c` run on the empty heap proceed in lock
step: the arrays allocated by the first are those of the second, shifted by the
length of `H`. -/

theorem sliceRel_emptySlice (off : Nat) : SliceRel off emptySlice emptySlice := by
  simp [SliceRel, emptySlice]

theorem read_sim (H hB : Heap) (a b : Slice) (hab : SliceRel H.length a b) :
    a.read (H ++ hB) = b.read hB := by
  obtain ⟨hlen, _, hle, harr⟩ := hab
  unfold Slice.read
  rcases Nat.eq_zero_or_pos b.cap with h0 | hpos
  · have hb0 : b.len = 0 := by omega
    rw [hlen, hb0]
    simp
  · rw [harr hpos, hlen, List.getD_append_right _ _ _ _ (Nat.le_add_left _ _)]
    simp

theorem goAppend_sim (grow : Nat → Nat) (H hB : Heap) (a b : Slice) (v : String)
    (hab : SliceRel H.length a b) :
    (goAppend grow (H ++ hB) a v).1 = H ++ (goAppend grow hB b v).1 ∧
      SliceRel H.length (goAppend grow (H ++ hB) a v).2 (goAppend grow hB b v).2 := by
  have hread := read_sim H hB a b hab
  obtain ⟨hlen, hcap, hle, harr⟩ := hab
  unfold goAppend
  by_cases hlt : b.len < b.cap
  · have hlt' : a.len < a.cap := by omega
    have hpos : 0 < b.cap := by omega
    rw [if_pos hlt, if_pos hlt']
    refine ⟨?_, ?_⟩
    · simp only
      rw [harr hpos, List.set_append_right _ _ (Nat.le_add_left _ _),
        List.getD_append_right _ _ _ _ (Nat.le_add_left _ _), hlen]
      simp
    · exact ⟨by simp only; omega, hcap, by simp only; omega, fun _ => harr hpos⟩
  · have hlt' : ¬ a.len < a.cap := by omega
    rw [if_neg hlt, if_neg hlt']
    refine ⟨?_, ?_⟩
    · simp only
      rw [hread, hlen, hcap, List.append_assoc]
    · refine ⟨by simp only; omega, by simp only; rw [hlen, hcap], by simp only; omega, fun _ => ?_⟩
      simp only [List.length_append]
      omega

theorem parentStep_sim (grow : Nat → Nat) (H : Heap) (c curr : String)
    (A B : State) (q : List String) (p : String) (h : Sim H c A B) :
    Sim H c (parentStep grow c curr (A, q) p).1 (parentStep grow c curr (B, q) p).1 := by
  obtain ⟨hheap, hres⟩ := h
  have hbase : SliceRel H.length ((A.result { Child := c, Parent := curr }).getD emptySlice)
      ((B.result { Child := c, Parent := curr }).getD emptySlice) := by
    rcases hres curr with ⟨hA, hB⟩ | ⟨a, b, hA, hB, hab⟩
    · rw [hA, hB]; exact sliceRel_emptySlice _
    · rw [hA, hB]; exact hab
  have hgo := goAppend_sim grow H B.heap _ _ curr hbase
  simp only [parentStep, Sim, mapSet]
  rw [hheap]
  refine ⟨hgo.1, fun y => ?_⟩
  by_cases hy : y = p
  · subst hy
    right
    exact ⟨_, _, by simp, by simp, hgo.2⟩
  · have hne : ¬ ({ Child := c, Parent := y } : TypePair) = { Child := c, Parent := p } := by
      intro heq
      injection heq with _ h2
      exact hy h2
    simp only [hne, if_false]
    exact hres y

theorem foldl_parentStep_sim (grow : Nat → Nat) (H : Heap) (c curr : String) (ps : List String)
    (A B : State) (q : List String) (h : Sim H c A B) :
    Sim H c (ps.foldl (parentStep grow c curr) (A, q)).1
      (ps.foldl (parentStep grow c curr) (B, q)).1 := by
  induction ps generalizing A B q with
  | nil => exact h
  | cons p ps ih =>
    rw [List.foldl_cons, List.foldl_cons]
    have hsim := parentStep_sim grow H c curr A B q p h
    have hA : parentStep grow c curr (A, q) p = ((parentStep grow c curr (A, q) p).1, q ++ [p]) := rfl
    have hB : parentStep grow c curr (B, q) p = ((parentStep grow c curr (B, q) p).1, q ++ [p]) := rfl
    rw [hA, hB]
    exact ih _ _ _ hsim

theorem traverse_sim (grow : Nat → Nat) (link : String → List String) (H : Heap) (c : String)
    (n : Nat) (ws : List String) (A B r : State) (hsim : Sim H c A B)
    (h : traverse grow link c n ws A = some r) :
    ∃ rB, traverse grow link c n ws B = some rB ∧ Sim H c r rB := by
  induction n generalizing ws A B with
  | zero =>
    cases ws with
    | nil => rw [traverse_nil] at h ⊢; cases h; exact ⟨B, rfl, hsim⟩
    | cons x rest => simp [traverse] at h
  | succ n ih =>
    cases ws with
    | nil => rw [traverse_nil] at h ⊢; cases h; exact ⟨B, rfl, hsim⟩
    | cons x rest =>
      rw [traverse_succ_cons] at h ⊢
      exact ih _ _ _ (foldl_parentStep_sim _ _ _ _ _ _ _ _ hsim) h

theorem table_of_sim (H : Heap) (c : String) (A B : State) (h : Sim H c A B) (y : String) :
    A.table { Child := c, Parent := y } = B.table { Child := c, Parent := y } := by
  obtain ⟨hheap, hres⟩ := h
  unfold State.table
  rcases hres y with ⟨hA, hB⟩ | ⟨a, b, hA, hB, hab⟩
  · rw [hA, hB]
    rfl
  · rw [hA, hB, hheap]
    simp only [Option.map_some']
    rw [read_sim H B.heap a b hab]

/-- Heaps only grow, and the arrays that exist keep their index: after the
traversal of `c` the heap is the old heap followed by new arrays, as far as the
slices of the other children can tell. -/
theorem read_of_sim_old (H hB : Heap) (s : Slice) (hs : SliceOk H s) :
    s.read (H ++ hB) = s.read H := by
  unfold Slice.read
  rcases Nat.eq_zero_or_pos s.cap with h0 | hpos
  · have := hs.1
    have hl : s.len = 0 := by omega
    rw [hl]
    simp
  · rw [List.getD_append _ _ _ _ (hs.2 hpos).1]

theorem traverse_local (grow : Nat → Nat) (link : String → List String) (c : String)
    (R0 : TypePair → Option Slice) (hR0 : ∀ k s, R0 k = some s → s = emptySlice)
    (n : Nat) (ws : List String) (st r : State) (hwf : WF st)
    (hst : ∀ y, st.result { Child := c, Parent := y } = R0 { Child := c, Parent := y })
    (h : traverse grow link c n ws st = some r) :
    (∃ rB, traverse grow link c n ws { result := R0, heap := [] } = some rB ∧
      ∀ y, r.table { Child := c, Parent := y } = rB.table { Child := c, Parent := y }) ∧
    (∀ k : TypePair, k.Child ≠ c → r.result k = st.result k ∧ r.table k = st.table k) := by
  have hsim : Sim st.heap c st { result := R0, heap := [] } := by
    refine ⟨by simp, fun y => ?_⟩
    rw [hst y]
    cases hres : R0 { Child := c, Parent := y } with
    | none => exact Or.inl ⟨rfl, hres⟩
    | some s =>
      right
      have := hR0 _ _ hres
      subst this
      exact ⟨emptySlice, emptySlice, rfl, hres, sliceRel_emptySlice _⟩
  obtain ⟨rB, hrB, hsim'⟩ := traverse_sim grow link st.heap c n ws st _ r hsim h
  refine ⟨⟨rB, hrB, fun y => table_of_sim _ _ _ _ hsim' y⟩, fun k hk => ?_⟩
  have hres : r.result k = st.result k :=
    traverse_frame grow link c n ws st r h k (fun hc => hk hc.1)
  refine ⟨hres, ?_⟩
  unfold State.table
  rw [hres, hsim'.1]
  cases hk' : st.result k with
  | none => rfl
  | some s =>
    simp only [Option.map_some']
    rw [read_of_sim_old _ _ _ (hwf k s hk')]

theorem closureLoop_local (grow : Nat → Nat) (link : String → List String) (fuel : Nat)
    (R0 : TypePair → Option Slice) (hR0 : ∀ k s, R0 k = some s → s = emptySlice)
    (order : List String) (st r : State) (hnd : order.Nodup) (hwf : WF st)
    (hst : ∀ c ∈ order, ∀ y,
      st.result { Child := c, Parent := y } = R0 { Child := c, Parent := y })
    (h : closureLoop grow link fuel order st = some r) :
    (∀ k : TypePair, k.Child ∉ order → r.table k = st.table k) ∧
    (∀ c ∈ order,
      ∃ rB, traverse grow link c fuel (link c) { result := R0, heap := [] } = some rB ∧
        ∀ y, r.table { Child := c, Parent := y } = rB.table { Child := c, Parent := y }) := by
  induction order generalizing st with
  | nil =>
    simp only [closureLoop, Option.some.injEq] at h
    subst h
    exact ⟨fun _ _ => rfl, fun c hc => absurd hc (List.not_mem_nil c)⟩
  | cons c cs ih =>
    obtain ⟨st', h1, h2⟩ := (closureLoop_cons _ _ _ _ _ _ _).1 h
    obtain ⟨hc_cs, hnd_cs⟩ := List.nodup_cons.1 hnd
    obtain ⟨⟨rB, hrB, htab⟩, hother⟩ := traverse_local grow link c R0 hR0 fuel (link c) st st' hwf
      (hst c (List.mem_cons_self _ _)) h1
    have hst' : ∀ c' ∈ cs, ∀ y,
        st'.result { Child := c', Parent := y } = R0 { Child := c', Parent := y } := by
      intro c' hc' y
      have hne : c' ≠ c := fun heq => hc_cs (heq ▸ hc')
      rw [(hother { Child := c', Parent := y } hne).1]
      exact hst c' (List.mem_cons_of_mem _ hc') y
    obtain ⟨ih1, ih2⟩ := ih st' hnd_cs (traverse_WF _ _ _ _ _ _ _ h1 hwf) hst' h2
    refine ⟨fun k hk => ?_, fun c' hc' => ?_⟩
    · rw [ih1 k (fun hmem => hk (List.mem_cons_of_mem _ hmem))]
      exact (hother k (fun heq => hk (heq ▸ List.mem_cons_self _ _))).2
    · rcases List.mem_cons.1 hc' with hcc | hcs
      · subst hcc
        refine ⟨rB, hrB, fun y => ?_⟩
        rw [ih1 _ hc_cs]
        exact htab y
      · exact ih2 c' hcs

theorem readRecords_result_empty (ti : List typeInfo) (k : TypePair) (s : Slice)
    (h : (readRecords ti).result k = some s) : s = emptySlice := by
  rw [readRecords_result] at h
  split at h
  · exact (Option.some.inj h).symm
  · cases h

theorem WF_startState (ti : List typeInfo) : WF (startState ti) := by
  intro k s hks
  have := readRecords_result_empty ti k s hks
  subst this
  exact sliceOk_emptySlice _

theorem link_eq_nil_of_not_mem_linkKeys (ti : List typeInfo) (c : String)
    (hc : c ∉ linkKeys ti) : (readRecords ti).link c = [] := by
  apply List.eq_nil_iff_forall_not_mem.2
  intro p hp
  exact hc ((mem_linkKeys ti c).2 ⟨p, (mem_readRecords_link ti c p).1 hp⟩)

/-- Locality of `GetContainedIn`: whatever the order in which the children are
visited, the entries of child `c` in the returned table are those computed by
the traversal of `c` alone. -/
theorem GetContainedIn_local (grow : Nat → Nat) (order : List String) (ti : List typeInfo)
    (fuel : Nat) (t : TypePair → Option (List String)) (hperm : order.Perm (linkKeys ti))
    (h : GetContainedIn grow order ti fuel = some t) (c : String) :
    ∃ tc, childTable grow ti c fuel = some tc ∧
      ∀ y, t { Child := c, Parent := y } = tc { Child := c, Parent := y } := by
  simp only [GetContainedIn, Option.map_eq_some'] at h
  obtain ⟨r, hr, rfl⟩ := h
  have hnd : order.Nodup := hperm.nodup_iff.2 (nodup_linkKeys ti)
  obtain ⟨h1, h2⟩ := closureLoop_local grow (readRecords ti).link fuel (readRecords ti).result
    (readRecords_result_empty ti) order (startState ti) r hnd (WF_startState ti)
    (fun _ _ _ => rfl) hr
  by_cases hc : c ∈ order
  · obtain ⟨rB, hrB, htab⟩ := h2 c hc
    exact ⟨rB.table, by simp [childTable, startState, hrB], htab⟩
  · have hnil := link_eq_nil_of_not_mem_linkKeys ti c (fun hmem => hc (hperm.mem_iff.2 hmem))
    refine ⟨(startState ti).table, ?_, fun y => h1 _ hc⟩
    simp [childTable, hnil, traverse_nil]

/-! ## What `append` does to the contents of the stored slices -/

theorem take_set_of_le (l : List String) (n m : Nat) (a : String) (h : n ≤ m) :
    (l.set m a).take n = l.take n := by
  induction l generalizing n m with
  | nil => simp
  | cons x xs ih =>
    cases m with
    | zero =>
      have : n = 0 := by omega
      subst this
      simp
    | succ m =>
      cases n with
      | zero => simp
      | succ n =>
        simp only [List.set_cons_succ, List.take_succ_cons]
        rw [ih n m (by omega)]

theorem take_succ_set (l : List String) (n : Nat) (a : String) (h : n < l.length) :
    (l.set n a).take (n + 1) = l.take n ++ [a] := by
  induction l generalizing n with
  | nil => simp at h
  | cons x xs ih =>
    cases n with
    | zero => simp
    | succ n =>
      simp only [List.set_cons_succ, List.take_succ_cons, List.cons_append]
      rw [ih n (by simpa using h)]

theorem goAppend_read_new (grow : Nat → Nat) (h : Heap) (b : Slice) (v : String)
    (hb : SliceOk h b) :
    (goAppend grow h b v).2.read (goAppend grow h b v).1 = b.read h ++ [v] := by
  have hrl := read_length hb
  unfold goAppend
  split
  · rename_i hlt
    have hpos : 0 < b.cap := by omega
    obtain ⟨harr, hlen⟩ := hb.2 hpos
    simp only [Slice.read, heap_getD_set, harr, and_self, if_true]
    exact take_succ_set _ _ _ (by omega)
  · simp only [Slice.read]
    rw [List.getD_append_right _ _ _ _ (Nat.le_refl _)]
    simp only [Nat.sub_self, List.getD_cons_zero]
    unfold Slice.read at hrl
    exact List.take_left' (by rw [List.length_append, hrl, List.length_singleton])

theorem goAppend_read_old (grow : Nat → Nat) (h : Heap) (b : Slice) (v : String) (s : Slice)
    (hs : SliceOk h s) (htip : 0 < s.cap → s.arr = b.arr → s.len ≤ b.len) :
    s.read (goAppend grow h b v).1 = s.read h := by
  rcases Nat.eq_zero_or_pos s.cap with h0 | hpos
  · have := hs.1
    have hl : s.len = 0 := by omega
    simp [Slice.read, hl]
  · obtain ⟨harr, hlen⟩ := hs.2 hpos
    unfold goAppend
    split
    · simp only [Slice.read, heap_getD_set]
      split
      · rename_i heq
        rw [← heq.1] at htip
        rw [heq.1]
        rw [take_set_of_le _ _ _ _ (htip hpos rfl)]
      · rfl
    · simp only [Slice.read]
      rw [List.getD_append _ _ _ _ harr]

theorem mapSet_apply {K V : Type} [DecidableEq K] (m : K → V) (k : K) (v : V) (k' : K) :
    mapSet m k v k' = if k' = k then v else m k' := rfl

theorem parentStep_tip (grow : Nat → Nat) (c curr : String) (st : State) (q : List String)
    (p : String) (b : Slice) (hb : st.result { Child := c, Parent := curr } = some b)
    (hwf : WF st) (htip : Tip st b) :
    (parentStep grow c curr (st, q) p).1.result { Child := c, Parent := p } =
        some (goAppend grow st.heap b curr).2 ∧
      (parentStep grow c curr (st, q) p).1.heap = (goAppend grow st.heap b curr).1 ∧
      Tip (parentStep grow c curr (st, q) p).1 (goAppend grow st.heap b curr).2 ∧
      (∀ k, k ≠ { Child := c, Parent := p } →
        (parentStep grow c curr (st, q) p).1.table k = st.table k) := by
  simp only [parentStep, hb, Option.getD_some, mapSet_apply, if_true, true_and]
  refine ⟨?_, ?_⟩
  · intro k s hks hpos harr
    simp only [mapSet_apply] at hks
    split at hks
    · cases hks
      exact Nat.le_refl _
    · have hok := hwf k s hks
      revert harr
      unfold goAppend
      split
      · intro harr
        have := htip k s hks hpos harr
        simp only
        omega
      · intro harr
        simp only at harr
        have := (hok.2 hpos).1
        omega
  · intro k hk
    simp only [State.table, mapSet_apply, hk, if_false]
    cases hks : st.result k with
    | none => rfl
    | some s =>
      simp only [Option.map_some']
      rw [goAppend_read_old grow st.heap b curr s (hwf k s hks) (htip k s hks)]

/-! ## Traversal along a chain -/

theorem traverse_chain (grow : Nat → Nat) (link : String → List String) (c : String)
    (rest : List String) :
    ∀ (x : String) (st : State) (b : Slice) (n : Nat), LinkChain link (x :: rest) →
      (x :: rest).Nodup → WF st → st.result { Child := c, Parent := x } = some b → Tip st b →
      rest.length + 1 ≤ n →
      ∃ r, traverse grow link c n [x] st = some r ∧
        (∀ l2 a l3, rest = l2 ++ a :: l3 →
          r.table { Child := c, Parent := a } = some (b.read st.heap ++ x :: l2)) ∧
        (∀ k : TypePair, (∀ z ∈ rest, k ≠ { Child := c, Parent := z }) →
          r.table k = st.table k) := by
  induction rest with
  | nil =>
    intro x st b n hchain _ _ _ _ hn
    obtain ⟨m, rfl⟩ : ∃ m, n = m + 1 := ⟨n - 1, by omega⟩
    have hlink : link x = [] := hchain
    refine ⟨st, ?_, ?_, fun _ _ => rfl⟩
    · rw [traverse_succ_cons, hlink]
      exact traverse_nil _ _ _ _ _
    · intro l2 a l3 h
      simp at h
  | cons y rest' ih =>
    intro x st b n hchain hnd hwf hb htip hn
    obtain ⟨m, rfl⟩ : ∃ m, n = m + 1 := ⟨n - 1, by simp at hn; omega⟩
    obtain ⟨hlink, hchain'⟩ : link x = [y] ∧ LinkChain link (y :: rest') := hchain
    obtain ⟨hx, hnd'⟩ := List.nodup_cons.1 hnd
    obtain ⟨hy, _⟩ := List.nodup_cons.1 hnd'
    obtain ⟨hres, hheap, htip', hframe⟩ := parentStep_tip grow c x st [] y b hb hwf htip
    have hwf' : WF (parentStep grow c x (st, []) y).1 := parentStep_WF grow c x (st, []) y hwf
    obtain ⟨r, hr, hval, hfr⟩ := ih y (parentStep grow c x (st, []) y).1
      (goAppend grow st.heap b x).2 m hchain' hnd' hwf' hres htip' (by simp at hn; omega)
    have hread : (goAppend grow st.heap b x).2.read (parentStep grow c x (st, []) y).1.heap =
        b.read st.heap ++ [x] := by
      rw [hheap]
      exact goAppend_read_new grow st.heap b x (hwf _ _ hb)
    refine ⟨r, ?_, ?_, ?_⟩
    · rw [traverse_succ_cons, hlink]
      simpa using hr
    · intro l2 a l3 h
      cases l2 with
      | nil =>
        simp only [List.nil_append, List.cons.injEq] at h
        obtain ⟨rfl, rfl⟩ := h
        rw [hfr _ (fun z hz heq => by
          injection heq with _ h2
          exact hy (h2 ▸ hz))]
        unfold State.table
        rw [hres, Option.map_some', hread]
      | cons y' l2' =>
        simp only [List.cons_append, List.cons.injEq] at h
        obtain ⟨rfl, h⟩ := h
        rw [hval l2' a l3 h, hread]
        simp
    · intro k hk
      rw [hfr k (fun z hz => hk z (List.mem_cons_of_mem _ hz))]
      exact hframe k (hk y (List.mem_cons_self _ _))

/-! ## The containment edges of a chain -/

theorem chain_link_cons (a : String) (l : List String) (x : String) :
    (readRecords (chainEdges (a :: l))).link x =
      (if a = x then l.head?.toList else []) ++ (readRecords (chainEdges l)).link x := by
  cases l with
  | nil => simp [chainEdges, readRecords_link]
  | cons b rest =>
    simp only [chainEdges, readRecords_link, List.filter_cons, edge, true_and, List.head?_cons,
      Option.toList_some]
    by_cases h : a = x
    · simp [h]
    · simp [h]

theorem chain_link_not_mem (l : List String) (x : String) (hx : x ∉ l) :
    (readRecords (chainEdges l)).link x = [] := by
  induction l with
  | nil => simp [chainEdges, readRecords_link]
  | cons a l ih =>
    have hne : ¬ a = x := fun h => hx (h ▸ List.mem_cons_self _ _)
    rw [chain_link_cons, ih (fun h => hx (List.mem_cons_of_mem _ h)), if_neg hne]
    rfl

theorem chain_link_last (pre : List String) (x : String) (hx : x ∉ pre) :
    (readRecords (chainEdges (pre ++ [x]))).link x = [] := by
  induction pre with
  | nil => simp [chainEdges, readRecords_link]
  | cons a pre ih =>
    have hne : ¬ a = x := fun h => hx (h ▸ List.mem_cons_self _ _)
    rw [List.cons_append, chain_link_cons, ih (fun h => hx (List.mem_cons_of_mem _ h)),
      if_neg hne]
    rfl

theorem chain_link_mid (pre : List String) (x y : String) (post : List String)
    (hpre : x ∉ pre) (hpost : x ∉ y :: post) :
    (readRecords (chainEdges (pre ++ x :: y :: post))).link x = [y] := by
  induction pre with
  | nil =>
    rw [List.nil_append, chain_link_cons, chain_link_not_mem _ _ hpost, if_pos rfl]
    rfl
  | cons a pre ih =>
    have hne : ¬ a = x := fun h => hpre (h ▸ List.mem_cons_self _ _)
    rw [List.cons_append, chain_link_cons, ih (fun h => hpre (List.mem_cons_of_mem _ h)),
      if_neg hne]
    rfl

theorem linkChain_suffix (suf : List String) :
    ∀ pre : List String, (pre ++ suf).Nodup →
      LinkChain (readRecords (chainEdges (pre ++ suf))).link suf := by
  induction suf with
  | nil => intro _ _; trivial
  | cons x rest ih =>
    intro pre hnd
    have hxpre : x ∉ pre := fun h => (List.nodup_append.1 hnd).2.2 h (List.mem_cons_self _ _)
    have hxrest : x ∉ rest := (List.nodup_cons.1 (List.nodup_append.1 hnd).2.1).1
    cases rest with
    | nil => exact chain_link_last pre x hxpre
    | cons y rest' =>
      refine ⟨chain_link_mid pre x y rest' hxpre hxrest, ?_⟩
      have := ih (pre ++ [x]) (by simpa using hnd)
      simpa using this

/-- In a duplicate-free list the position of an element is unique. -/
theorem nodup_split_unique (l1 l2 r1 r2 : List String) (c : String)
    (hnd : (l1 ++ c :: r1).Nodup) (h : l1 ++ c :: r1 = l2 ++ c :: r2) : l1 = l2 ∧ r1 = r2 := by
  induction l1 generalizing l2 with
  | nil =>
    cases l2 with
    | nil => simpa using h
    | cons a l2 =>
      simp only [List.nil_append, List.cons_append, List.cons.injEq] at h
      obtain ⟨rfl, h⟩ := h
      have hc : c ∉ r1 := (List.nodup_cons.1 hnd).1
      exact absurd (by rw [h]; simp) hc
  | cons a l1 ih =>
    cases l2 with
    | nil =>
      simp only [List.nil_append, List.cons_append, List.cons.injEq] at h
      obtain ⟨rfl, h⟩ := h
      have hc : a ∉ l1 ++ a :: r1 := (List.nodup_cons.1 hnd).1
      exact absurd (by simp) hc
    | cons b l2 =>
      simp only [List.cons_append, List.cons.injEq] at h
      obtain ⟨rfl, h⟩ := h
      obtain ⟨h1, h2⟩ := ih l2 (List.nodup_cons.1 hnd).2 h
      exact ⟨by rw [h1], h2⟩

/-! ## `GetContainedIn` as a whole -/

theorem le_sum_map_of_mem (f : String → Nat) (l : List String) (c : String) (hc : c ∈ l) :
    f c ≤ (l.map f).sum := by
  induction l with
  | nil => simp at hc
  | cons a l ih =>
    rw [List.map_cons, List.sum_cons]
    rcases List.mem_cons.1 hc with h | h
    · subst h; omega
    · have := ih h; omega

theorem acyclic_par (ti : List typeInfo) (hac : Acyclic ti) :
    ∀ x, ¬ Relation.TransGen (Par (readRecords ti).link) x x := by
  rw [par_readRecords]
  exact hac

/-- On an acyclic edge list `GetContainedIn` returns, whatever the order of the children. -/
theorem GetContainedIn_terminates (grow : Nat → Nat) (order : List String) (ti : List typeInfo)
    (hac : Acyclic ti) : ∃ fuel t, GetContainedIn grow order ti fuel = some t := by
  have hwf := wf_of_acyclic (readRecords ti).link (linkKeys ti)
    (fun x hx => by
      by_contra hmem
      exact hx (link_eq_nil_of_not_mem_linkKeys ti x hmem))
    (acyclic_par ti hac)
  obtain ⟨W, hW⟩ := exists_walks (readRecords ti).link hwf
  obtain ⟨r, hr⟩ := closureLoop_terminates grow (readRecords ti).link W hW
    ((order.map (fun c => (((readRecords ti).link c).map W).sum)).sum) order
    (fun c hc => le_sum_map_of_mem (fun c => (((readRecords ti).link c).map W).sum) order c hc)
    { result := (readRecords ti).result, heap := [] }
  refine ⟨(order.map (fun c => (((readRecords ti).link c).map W).sum)).sum, r.table, ?_⟩
  unfold GetContainedIn
  simp only
  rw [hr]
  rfl

/-- If `GetContainedIn` returns, the edge list is acyclic. -/
theorem GetContainedIn_acyclic (grow : Nat → Nat) (order : List String) (ti : List typeInfo)
    (fuel : Nat) (t : TypePair → Option (List String)) (hperm : order.Perm (linkKeys ti))
    (h : GetContainedIn grow order ti fuel = some t) : Acyclic ti := by
  simp only [GetContainedIn, Option.map_eq_some'] at h
  obtain ⟨r, hr, _⟩ := h
  intro x hcyc
  have hx : x ∈ order := by
    obtain ⟨p, hp, _⟩ := Relation.TransGen.head'_iff.1 hcyc
    exact hperm.mem_iff.2 ((mem_linkKeys ti x).2 ⟨p, hp⟩)
  apply closureLoop_no_cycle grow (readRecords ti).link fuel order _ r hr x hx
  rw [par_readRecords]
  exact hcyc

/-- The keys of the returned table are the pairs related by reachability. -/
theorem GetContainedIn_keys (grow : Nat → Nat) (order : List String) (ti : List typeInfo)
    (fuel : Nat) (t : TypePair → Option (List String)) (hperm : order.Perm (linkKeys ti))
    (h : GetContainedIn grow order ti fuel = some t) (d a : String) :
    (t { Child := d, Parent := a }).isSome ↔ Reach ti d a := by
  simp only [GetContainedIn, Option.map_eq_some'] at h
  obtain ⟨r, hr, rfl⟩ := h
  have hkey : (r.table { Child := d, Parent := a }).isSome =
      (r.result { Child := d, Parent := a }).isSome := by
    simp [State.table]
  rw [hkey]
  constructor
  · intro hsome
    by_cases hlong : ∃ x ∈ (readRecords ti).link d,
        Relation.TransGen (Par (readRecords ti).link) x a
    · obtain ⟨x, hx, hxa⟩ := hlong
      rw [par_readRecords] at hxa
      exact Relation.TransGen.head ((mem_readRecords_link ti d x).1 hx) hxa
    · rw [closureLoop_frame grow _ fuel order _ r hr { Child := d, Parent := a } hlong] at hsome
      by_contra hnot
      have hne : ¬ Edge ti d a := fun he => hnot (Relation.TransGen.single he)
      simp only at hsome
      rw [readRecords_result_of_not_edge hne] at hsome
      simp at hsome
  · intro hreach
    obtain ⟨x, hdx, hxa⟩ := Relation.TransGen.head'_iff.1 hreach
    rcases Relation.reflTransGen_iff_eq_or_transGen.1 hxa with heq | htr
    · subst heq
      apply closureLoop_isSome_mono grow _ fuel order _ r hr
      simp only
      rw [readRecords_result_of_edge hdx]
      rfl
    · have hd : d ∈ order := hperm.mem_iff.2 ((mem_linkKeys ti d).2 ⟨x, hdx⟩)
      apply closureLoop_complete grow _ fuel order _ r hr d hd x
        ((mem_readRecords_link ti d x).2 hdx) a
      rw [par_readRecords]
      exact htr

/-- An entry that no longer path can reach keeps the empty list of its direct edge. -/
theorem GetContainedIn_direct (grow : Nat → Nat) (order : List String) (ti : List typeInfo)
    (fuel : Nat) (t : TypePair → Option (List String))
    (h : GetContainedIn grow order ti fuel = some t) (c p : String) (hedge : Edge ti c p)
    (hshort : ¬ ∃ x, Edge ti c x ∧ Reach ti x p) :
    t { Child := c, Parent := p } = some [] := by
  simp only [GetContainedIn, Option.map_eq_some'] at h
  obtain ⟨r, hr, rfl⟩ := h
  have hfr := closureLoop_frame grow _ fuel order _ r hr { Child := c, Parent := p } (by
    rintro ⟨x, hx, hxp⟩
    rw [par_readRecords] at hxp
    exact hshort ⟨x, (mem_readRecords_link ti c x).1 hx, hxp⟩)
  simp only at hfr
  rw [readRecords_result_of_edge hedge] at hfr
  simp [State.table, hfr, Slice.read, emptySlice]

/-- Whether the work-list loop returns does not depend on the state it starts in. -/
theorem traverse_isSome_indep (grow : Nat → Nat) (link : String → List String) (c : String)
    (n : Nat) (ws : List String) (st st' : State) :
    (traverse grow link c n ws st).isSome = (traverse grow link c n ws st').isSome := by
  induction n generalizing ws st st' with
  | zero =>
    cases ws with
    | nil => simp [traverse_nil]
    | cons x rest => simp [traverse]
  | succ n ih =>
    cases ws with
    | nil => simp [traverse_nil]
    | cons x rest =>
      rw [traverse_succ_cons, traverse_succ_cons]
      exact ih _ _ _

theorem closureLoop_of_traverse (grow : Nat → Nat) (link : String → List String) (fuel : Nat)
    (st0 : State) (order : List String)
    (h : ∀ c ∈ order, (traverse grow link c fuel (link c) st0).isSome) (st : State) :
    ∃ r, closureLoop grow link fuel order st = some r := by
  induction order generalizing st with
  | nil => exact ⟨st, rfl⟩
  | cons c cs ih =>
    have h1 := h c (List.mem_cons_self _ _)
    rw [traverse_isSome_indep grow link c fuel (link c) st0 st] at h1
    obtain ⟨st', hst'⟩ := Option.isSome_iff_exists.1 h1
    obtain ⟨r, hr⟩ := ih (fun c' hc' => h c' (List.mem_cons_of_mem _ hc')) st'
    exact ⟨r, (closureLoop_cons _ _ _ _ _ _ _).2 ⟨st', hst', hr⟩⟩

theorem childTable_fuel_mono (grow : Nat → Nat) (ti : List typeInfo) (c : String) (n m : Nat)
    (hnm : n ≤ m) (tc : TypePair → Option (List String))
    (h : childTable grow ti c n = some tc) : childTable grow ti c m = some tc := by
  simp only [childTable, Option.map_eq_some'] at h ⊢
  obtain ⟨r, hr, rfl⟩ := h
  exact ⟨r, traverse_fuel_mono _ _ _ _ _ hnm _ _ _ hr, rfl⟩

/-- The table of a child does not depend on the fuel, once there is enough of it. -/
theorem childTable_unique (grow : Nat → Nat) (ti : List typeInfo) (c : String) (n m : Nat)
    (tn tm : TypePair → Option (List String))
    (hn : childTable grow ti c n = some tn) (hm : childTable grow ti c m = some tm) :
    tn = tm := by
  rcases Nat.le_total n m with h | h
  · have := childTable_fuel_mono grow ti c n m h tn hn
    rw [hm] at this
    exact (Option.some.inj this).symm
  · have := childTable_fuel_mono grow ti c m n h tm hm
    rw [hn] at this
    exact Option.some.inj this

theorem tip_startState (ti : List typeInfo) : Tip (startState ti) emptySlice := by
  intro k s hks hpos
  have := readRecords_result_empty ti k s hks
  subst this
  simp [emptySlice] at hpos

/-- The table computed for one child of a chain. -/
theorem childTable_chain (grow : Nat → Nat) (ts : List String) (hnd : ts.Nodup) (c : String)
    (n : Nat) (hn : ts.length ≤ n) :
    ∃ tc, childTable grow (chainEdges ts) c n = some tc ∧
      (∀ pre mid a post, ts = pre ++ c :: mid ++ a :: post →
        tc { Child := c, Parent := a } = some mid) ∧
      (∀ a, tc { Child := c, Parent := a } ≠ none →
        ∃ pre mid post, ts = pre ++ c :: mid ++ a :: post) := by
  have hnone : ∀ a, (readRecords (chainEdges ts)).link c = [] →
      (startState (chainEdges ts)).table { Child := c, Parent := a } = none := by
    intro a hl
    have hne : ¬ Edge (chainEdges ts) c a := by
      intro he
      have := (mem_readRecords_link _ c a).2 he
      rw [hl] at this
      simp at this
    simp [State.table, startState, readRecords_result_of_not_edge hne]
  by_cases hdec : ∃ pre x rest, ts = pre ++ c :: x :: rest
  · obtain ⟨pre, x, rest, hts⟩ := hdec
    subst hts
    have hnd' : (pre ++ c :: x :: rest).Nodup := hnd
    have hcpre : c ∉ pre := fun h => (List.nodup_append.1 hnd).2.2 h (List.mem_cons_self _ _)
    have hsuf : (c :: x :: rest).Nodup := (List.nodup_append.1 hnd).2.1
    have hcsuf : c ∉ x :: rest := (List.nodup_cons.1 hsuf).1
    have hxr : (x :: rest).Nodup := (List.nodup_cons.1 hsuf).2
    have hlink : (readRecords (chainEdges (pre ++ c :: x :: rest))).link c = [x] :=
      chain_link_mid pre c x rest hcpre hcsuf
    have hchain : LinkChain (readRecords (chainEdges (pre ++ c :: x :: rest))).link (x :: rest) := by
      have := linkChain_suffix (x :: rest) (pre ++ [c]) (by simpa using hnd)
      simpa using this
    have hedge : Edge (chainEdges (pre ++ c :: x :: rest)) c x :=
      (mem_readRecords_link _ c x).1 (by rw [hlink]; simp)
    have hlen : rest.length + 1 ≤ n := by
      simp only [List.length_append, List.length_cons] at hn
      omega
    obtain ⟨r, hr, hval, hfr⟩ := traverse_chain grow
      (readRecords (chainEdges (pre ++ c :: x :: rest))).link c rest x
      (startState (chainEdges (pre ++ c :: x :: rest))) emptySlice n hchain hxr
      (WF_startState _) (readRecords_result_of_edge hedge) (tip_startState _) hlen
    have hempty : emptySlice.read (startState (chainEdges (pre ++ c :: x :: rest))).heap = [] := by
      simp [Slice.read, emptySlice]
    have hx : r.table { Child := c, Parent := x } = some [] := by
      rw [hfr _ (fun z hz heq => by
        injection heq with _ h2
        exact (List.nodup_cons.1 hxr).1 (h2 ▸ hz))]
      simp [State.table, startState, readRecords_result_of_edge hedge, Slice.read, emptySlice]
    refine ⟨r.table, by simp [childTable, hlink, hr], ?_, ?_⟩
    · intro pre2 mid a post hdecomp
      rw [List.append_assoc, List.cons_append] at hdecomp
      obtain ⟨_, hrest⟩ := nodup_split_unique pre pre2 (x :: rest) (mid ++ a :: post) c hnd hdecomp
      cases mid with
      | nil =>
        simp only [List.nil_append, List.cons.injEq] at hrest
        rw [← hrest.1]
        exact hx
      | cons y mid' =>
        simp only [List.cons_append, List.cons.injEq] at hrest
        obtain ⟨rfl, hrest⟩ := hrest
        rw [hval mid' a post hrest, hempty]
        rfl
    · intro a ha
      by_cases hax : a = x
      · subst hax
        exact ⟨pre, [], rest, by simp⟩
      · by_cases har : a ∈ rest
        · obtain ⟨l2, l3, hl⟩ := List.append_of_mem har
          exact ⟨pre, x :: l2, l3, by simp [hl]⟩
        · exfalso
          apply ha
          rw [hfr _ (fun z hz heq => by
            injection heq with _ h2
            exact har (h2 ▸ hz))]
          have hne : ¬ Edge (chainEdges (pre ++ c :: x :: rest)) c a := by
            intro he
            have := (mem_readRecords_link _ c a).2 he
            rw [hlink] at this
            exact hax (by simpa using this)
          simp [State.table, startState, readRecords_result_of_not_edge hne]
  · have hlink : (readRecords (chainEdges ts)).link c = [] := by
      by_cases hc : c ∈ ts
      · obtain ⟨pre, tl, hts⟩ := List.append_of_mem hc
        cases tl with
        | nil =>
          subst hts
          exact chain_link_last pre c
            (fun h => (List.nodup_append.1 hnd).2.2 h (List.mem_cons_self _ _))
        | cons x rest => exact absurd ⟨pre, x, rest, hts⟩ hdec
      · exact chain_link_not_mem ts c hc
    refine ⟨(startState (chainEdges ts)).table, by simp [childTable, hlink, traverse_nil], ?_, ?_⟩
    · intro pre mid a post hdecomp
      exfalso
      apply hdec
      cases mid with
      | nil => exact ⟨pre, a, post, by simpa using hdecomp⟩
      | cons y mid' => exact ⟨pre, y, mid' ++ a :: post, by simpa using hdecomp⟩
    · intro a ha
      exact absurd (hnone a hlink) ha

theorem getElem_split (l pre post : List String) (x : String) (hl : l = pre ++ x :: post)
    (n : Nat) (hn : n = pre.length) (h : n < l.length) : l[n] = x := by
  subst hn hl
  induction pre with
  | nil => rfl
  | cons a pre ih => exact ih (by simp)

theorem indices_of_split (ts pre mid post : List String) (c a : String)
    (hts : ts = pre ++ c :: mid ++ a :: post) :
    ∃ i j, ∃ (hij : i < j) (hj : j < ts.length), ts[i] = c ∧ ts[j] = a := by
  have hlen : ts.length = pre.length + 1 + mid.length + 1 + post.length := by
    rw [hts]; simp; omega
  refine ⟨pre.length, pre.length + 1 + mid.length, by omega, by omega, ?_, ?_⟩
  · exact getElem_split ts pre (mid ++ a :: post) c (by rw [hts]; simp) _ rfl _
  · exact getElem_split ts (pre ++ c :: mid) post a hts _ (by simp; omega) _

theorem split_at_indices (ts : List String) (i j : Nat) (hij : i < j) (hj : j < ts.length) :
    ts = ts.take i ++ ts[i] :: ((ts.take j).drop (i + 1)) ++ ts[j] :: ts.drop (j + 1) := by
  have h1 : ts = ts.take j ++ ts[j] :: ts.drop (j + 1) := by
    conv_lhs => rw [← List.take_append_drop j ts, List.drop_eq_getElem_cons hj]
  have hi : i < (ts.take j).length := by
    rw [List.length_take]; omega
  have h2 : ts.take j = ts.take i ++ ts[i] :: (ts.take j).drop (i + 1) := by
    conv_lhs => rw [← List.take_append_drop i (ts.take j), List.drop_eq_getElem_cons hi]
    rw [List.take_take, Nat.min_eq_left (Nat.le_of_lt hij), List.getElem_take]
  conv_lhs => rw [h1, h2]

/-! ## Without shared backing arrays every entry is the chain of one path -/

theorem goAppend_read_old_full (grow : Nat → Nat) (h : Heap) (b : Slice) (v : String)
    (s : Slice) (hb : b.len = b.cap) (hs : SliceOk h s) :
    s.read (goAppend grow h b v).1 = s.read h := by
  have hnot : ¬ b.len < b.cap := by omega
  unfold goAppend
  rw [if_neg hnot]
  exact read_of_sim_old h _ s hs

theorem parentStep_pathInv (ti : List typeInfo) (c curr : String) (acc : State × List String)
    (p : String) (hinv : PathInv ti acc.1) (hedge : Edge ti curr p)
    (hkey : (acc.1.result { Child := c, Parent := curr }).isSome) :
    PathInv ti (parentStep exactFit c curr acc p).1 := by
  obtain ⟨hwf, hfull, hchain⟩ := hinv
  obtain ⟨b, hb⟩ := Option.isSome_iff_exists.1 hkey
  have hbfull := hfull _ _ hb
  have hnot : ¬ b.len < b.cap := by omega
  refine ⟨parentStep_WF exactFit c curr acc p hwf, ?_, ?_⟩
  · intro k s hks
    simp only [parentStep, hb, Option.getD_some, mapSet_apply] at hks
    split at hks
    · cases hks
      simp [goAppend, hnot, exactFit]
    · exact hfull k s hks
  · intro k s hks
    simp only [parentStep, hb, Option.getD_some, mapSet_apply] at hks ⊢
    split at hks
    · rename_i hk
      cases hks
      subst hk
      rw [goAppend_read_new exactFit acc.1.heap b curr (hwf _ _ hb)]
      have h1 := hchain _ _ hb
      simp only at h1 ⊢
      rw [List.append_assoc]
      exact List.chain_append_cons_cons.2 ⟨h1, hedge, List.Chain.nil⟩
    · rw [goAppend_read_old_full exactFit acc.1.heap b curr s hbfull (hwf k s hks)]
      exact hchain k s hks

theorem foldl_parentStep_pathInv (ti : List typeInfo) (c curr : String) (ps : List String)
    (acc : State × List String) (hinv : PathInv ti acc.1) (hedge : ∀ p ∈ ps, Edge ti curr p)
    (hkey : (acc.1.result { Child := c, Parent := curr }).isSome) :
    PathInv ti (ps.foldl (parentStep exactFit c curr) acc).1 := by
  induction ps generalizing acc with
  | nil => exact hinv
  | cons p ps ih =>
    rw [List.foldl_cons]
    apply ih
    · exact parentStep_pathInv ti c curr acc p hinv (hedge p (List.mem_cons_self _ _)) hkey
    · exact fun q hq => hedge q (List.mem_cons_of_mem _ hq)
    · simp only [parentStep, mapSet_apply]
      split
      · rfl
      · exact hkey

theorem traverse_pathInv (ti : List typeInfo) (c : String) (n : Nat) (ws : List String)
    (st r : State) (h : traverse exactFit (readRecords ti).link c n ws st = some r)
    (hinv : PathInv ti st)
    (hws : ∀ x ∈ ws, (st.result { Child := c, Parent := x }).isSome) : PathInv ti r := by
  induction n generalizing ws st with
  | zero =>
    cases ws with
    | nil => rw [traverse_nil] at h; cases h; exact hinv
    | cons x rest => simp [traverse] at h
  | succ n ih =>
    cases ws with
    | nil => rw [traverse_nil] at h; cases h; exact hinv
    | cons x rest =>
      rw [traverse_succ_cons] at h
      apply ih _ _ h
      · exact foldl_parentStep_pathInv ti c x _ (st, rest) hinv
          (fun p hp => (mem_readRecords_link ti x p).1 hp) (hws x (List.mem_cons_self _ _))
      · intro y hy
        rcases List.mem_append.1 hy with hy | hy
        · exact foldl_parentStep_isSome_mono _ _ _ _ _ _ _ (hws y (List.mem_cons_of_mem _ hy))
        · exact foldl_parentStep_isSome _ _ _ _ _ _ _ hy

theorem closureLoop_pathInv (ti : List typeInfo) (fuel : Nat) (order : List String)
    (st r : State) (h : closureLoop exactFit (readRecords ti).link fuel order st = some r)
    (hinv : PathInv ti st)
    (hkeys : ∀ c p, Edge ti c p → (st.result { Child := c, Parent := p }).isSome) :
    PathInv ti r := by
  induction order generalizing st with
  | nil => simp only [closureLoop, Option.some.injEq] at h; subst h; exact hinv
  | cons c cs ih =>
    obtain ⟨st', h1, h2⟩ := (closureLoop_cons _ _ _ _ _ _ _).1 h
    apply ih st' h2
    · exact traverse_pathInv ti c fuel _ st st' h1 hinv
        (fun x hx => hkeys c x ((mem_readRecords_link ti c x).1 hx))
    · exact fun c' p he => traverse_isSome_mono _ _ _ _ _ _ _ _ h1 (hkeys c' p he)

theorem pathInv_startState (ti : List typeInfo) : PathInv ti (startState ti) := by
  refine ⟨WF_startState ti, ?_, ?_⟩
  · intro k s hks
    have := readRecords_result_empty ti k s hks
    subst this
    rfl
  · intro k s hks
    have hs := readRecords_result_empty ti k s hks
    subst hs
    have hedge : Edge ti k.Child k.Parent := by
      by_contra hne
      have := readRecords_result_of_not_edge hne
      simp only [startState] at hks
      rw [this] at hks
      cases hks
    simpa [Slice.read, emptySlice] using hedge

/-- With a growth policy that never leaves spare capacity (so that no two
entries share a backing array), every value of the returned table is the
intermediate chain of one path of the input. -/
theorem GetContainedIn_path_exactFit (order : List String) (ti : List typeInfo) (fuel : Nat)
    (t : TypePair → Option (List String))
    (h : GetContainedIn exactFit order ti fuel = some t) (d a : String) (l : List String)
    (hl : t { Child := d, Parent := a } = some l) :
    List.Chain (Edge ti) d (l ++ [a]) := by
  simp only [GetContainedIn, Option.map_eq_some'] at h
  obtain ⟨r, hr, rfl⟩ := h
  obtain ⟨_, _, hchain⟩ := closureLoop_pathInv ti fuel order (startState ti) r hr
    (pathInv_startState ti) (fun c p he => by
      simp only [startState]
      rw [readRecords_result_of_edge he]
      rfl)
  simp only [State.table, Option.map_eq_some'] at hl
  obtain ⟨s, hs, rfl⟩ := hl
  exact hchain _ s hs

/-! ## Batches -/

theorem batch_bounds (rowSetSize i : Nat) (hi : i ≤ rowSetSize / BtBatchQuerySize) :
    batchLeft i ≤ batchRight rowSetSize i ∧ batchRight rowSetSize i ≤ rowSetSize := by
  have h : i * BtBatchQuerySize ≤ rowSetSize :=
    (Nat.le_div_iff_mul_le (by decide)).1 hi
  unfold batchLeft batchRight
  unfold BtBatchQuerySize at *
  split <;> omega

theorem mapM_eq_some_map {α β : Type} (f : α → Option β) (g : α → β) (l : List α)
    (h : ∀ a ∈ l, f a = some (g a)) : l.mapM f = some (l.map g) := by
  induction l with
  | nil => rfl
  | cons a l ih =>
    rw [List.mapM_cons, h a (List.mem_cons_self _ _),
      ih (fun b hb => h b (List.mem_cons_of_mem _ hb))]
    rfl

theorem goSlice_batch {α : Type} (xs : List α) (i : Nat)
    (hi : i ≤ xs.length / BtBatchQuerySize) :
    goSlice xs (batchLeft i) (batchRight xs.length i) =
      some ((xs.take (batchRight xs.length i)).drop (batchLeft i)) := by
  unfold goSlice
  rw [if_pos (batch_bounds xs.length i hi)]

theorem batches_rowList (keys : List String) (hk : keys ≠ []) :
    batches keys [] keys.length = some ((chunks keys).map RowSet.RowList) := by
  unfold batches chunks
  rw [List.map_map]
  apply mapM_eq_some_map
  intro i hi
  have hi' : i ≤ keys.length / BtBatchQuerySize := by
    have := List.mem_range.1 hi
    omega
  have hpos : keys.length > 0 := List.length_pos.2 hk
  simp only [rowSetPart, hpos, if_true, goSlice_batch keys i hi', Option.map_some',
    Function.comp_apply]

theorem batches_rowRangeList (ranges : List RowRange) :
    batches [] ranges ranges.length = some ((chunks ranges).map RowSet.RowRangeList) := by
  unfold batches chunks
  rw [List.map_map]
  apply mapM_eq_some_map
  intro i hi
  have hi' : i ≤ ranges.length / BtBatchQuerySize := by
    have := List.mem_range.1 hi
    omega
  simp [rowSetPart, goSlice_batch ranges i hi']

theorem chunks_length {α : Type} (xs : List α) :
    (chunks xs).length = xs.length / BtBatchQuerySize + 1 := by
  simp [chunks]

theorem chunks_take {α : Type} (xs : List α) (k : Nat)
    (hk : k ≤ xs.length / BtBatchQuerySize + 1) :
    ((List.range k).map
      (fun i => (xs.take (batchRight xs.length i)).drop (batchLeft i))).flatten =
      xs.take (min (k * BtBatchQuerySize) xs.length) := by
  induction k with
  | zero => simp
  | succ k ih =>
    have hk' : k ≤ xs.length / BtBatchQuerySize := by omega
    obtain ⟨hb1, hb2⟩ := batch_bounds xs.length k hk'
    have hkB : k * BtBatchQuerySize ≤ xs.length := (Nat.le_div_iff_mul_le (by decide)).1 hk'
    rw [List.range_succ, List.map_append, List.flatten_append, ih (by omega)]
    simp only [List.map_cons, List.map_nil, List.flatten_cons, List.flatten_nil, List.append_nil]
    have hright : min ((k + 1) * BtBatchQuerySize) xs.length = batchRight xs.length k := by
      unfold batchRight
      split <;> omega
    rw [hright, Nat.min_eq_left hkB]
    have htake : xs.take (k * BtBatchQuerySize) =
        (xs.take (batchRight xs.length k)).take (batchLeft k) := by
      rw [List.take_take, Nat.min_eq_left hb1]
      rfl
    rw [htake, List.take_append_drop]

theorem chunks_flatten {α : Type} (xs : List α) : (chunks xs).flatten = xs := by
  unfold chunks
  rw [chunks_take xs _ (Nat.le_refl _)]
  apply List.take_of_length_le
  unfold BtBatchQuerySize
  omega

theorem chunks_le {α : Type} (xs : List α) (p : List α) (hp : p ∈ chunks xs) :
    p.length ≤ BtBatchQuerySize := by
  unfold chunks at hp
  obtain ⟨i, hi, rfl⟩ := List.mem_map.1 hp
  have hi' : i ≤ xs.length / BtBatchQuerySize := by
    have := List.mem_range.1 hi
    omega
  obtain ⟨hb1, hb2⟩ := batch_bounds xs.length i hi'
  rw [List.length_drop, List.length_take, Nat.min_eq_left hb2]
  unfold batchRight batchLeft at *
  unfold BtBatchQuerySize at *
  split <;> omega

theorem spawnedBatches_rowList (keys : List String) (hk : keys ≠ []) :
    spawnedBatches (RowSet.RowList keys) = some ((chunks keys).map RowSet.RowList) := by
  simp only [spawnedBatches, switchRowSet]
  exact batches_rowList keys hk

theorem spawnedBatches_rowRangeList (ranges : List RowRange) :
    spawnedBatches (RowSet.RowRangeList ranges) = some ((chunks ranges).map RowSet.RowRangeList) := by
  simp only [spawnedBatches, switchRowSet]
  exact batches_rowRangeList ranges

theorem spawnedBatches_rowList_nil :
    spawnedBatches (RowSet.RowList []) = some ((chunks ([] : List RowRange)).map RowSet.RowRangeList) := by
  decide

theorem chunks_map {α β : Type} (f : α → β) (xs : List α) :
    (chunks xs).map (List.map f) = chunks (xs.map f) := by
  simp [chunks, List.map_drop, List.map_take]

/-- The batches of an accepted `RowSet`, whatever its variant, are the slices of
its entries. -/
theorem spawnedBatches_entries (rowSet : RowSet) (rowList : List String)
    (rowRangeList : List RowRange) (rowSetSize : Nat)
    (h : switchRowSet rowSet = some (rowList, rowRangeList, rowSetSize)) :
    rowSetSize = rowSet.entries.length ∧
    ∃ parts, spawnedBatches rowSet = some parts ∧ parts.map RowSet.entries = chunks rowSet.entries := by
  cases rowSet with
  | RowList keys =>
    simp only [switchRowSet, Option.some.injEq, Prod.mk.injEq] at h
    obtain ⟨_, _, rfl⟩ := h
    refine ⟨by simp [RowSet.entries], ?_⟩
    by_cases hk : keys = []
    · subst hk
      exact ⟨_, spawnedBatches_rowList_nil, by decide⟩
    · refine ⟨_, spawnedBatches_rowList keys hk, ?_⟩
      rw [List.map_map]
      exact chunks_map Sum.inl keys
  | RowRangeList ranges =>
    simp only [switchRowSet, Option.some.injEq, Prod.mk.injEq] at h
    obtain ⟨_, _, rfl⟩ := h
    refine ⟨by simp [RowSet.entries], _, spawnedBatches_rowRangeList ranges, ?_⟩
    rw [List.map_map]
    exact chunks_map Sum.inr ranges
  | RowRange r => simp [switchRowSet] at h
  | nil => simp [switchRowSet] at h

/-! ## Runs in which every request succeeds -/

theorem filterMap_getElem?_range {α : Type} (l : List α) :
    (List.range l.length).filterMap (fun i => l[i]?) = l := by
  induction l using List.reverseRecOn with
  | nil => rfl
  | append_singleton l a ih =>
    rw [List.length_append, List.length_singleton, List.range_succ, List.filterMap_append]
    have h1 : (List.range l.length).filterMap (fun i => (l ++ [a])[i]?) =
        (List.range l.length).filterMap (fun i => l[i]?) := by
      apply List.filterMap_congr
      intro i hi
      rw [List.getElem?_append_left (List.mem_range.1 hi)]
    rw [h1, ih]
    simp

theorem runTasks_all_ok {Row : Type} (capacity : Nat) (l : List (Except Error (List Row)))
    (chan : List (List Row)) (err : Option Error)
    (hok : ∀ a ∈ l, ∃ rows, a = Except.ok rows) (hcap : chan.length + l.length ≤ capacity) :
    runTasks capacity l chan err = some (err, chan ++ l.map rowsOf) := by
  induction l generalizing chan with
  | nil => simp [runTasks]
  | cons a l ih =>
    obtain ⟨rows, rfl⟩ := hok _ (List.mem_cons_self _ _)
    have hlt : chan.length < capacity := by
      simp only [List.length_cons] at hcap
      omega
    simp only [runTasks, hlt, if_true]
    rw [ih (chan ++ [rows]) (fun b hb => hok b (List.mem_cons_of_mem _ hb))
      (by simp only [List.length_append, List.length_cons, List.length_nil] at hcap ⊢; omega)]
    simp [rowsOf]

theorem visitRows_no_error {Row : Type} (action : Row → Option Error)
    (haction : ∀ row, action row = none) (rows : List Row) :
    visitRows action rows = (none, rows) := by
  induction rows with
  | nil => rfl
  | cons row rest ih => simp [visitRows, haction row, ih]

theorem drainChan_no_error {Row : Type} (action : Row → Option Error)
    (haction : ∀ row, action row = none) (chan : List (List Row)) :
    drainChan action chan = (none, chan.flatten) := by
  induction chan with
  | nil => rfl
  | cons rows more ih => simp [drainChan, visitRows_no_error action haction, ih]

theorem zipWith_all {α β γ : Type} (f : α → β → γ) (P : γ → Prop) (hP : ∀ a b, P (f a b))
    (as : List α) (bs : List β) : ∀ c ∈ List.zipWith f as bs, P c := by
  induction as generalizing bs with
  | nil => intro c hc; simp at hc
  | cons a as ih =>
    cases bs with
    | nil => intro c hc; simp at hc
    | cons b bs =>
      intro c hc
      simp only [List.zipWith_cons_cons, List.mem_cons] at hc
      rcases hc with rfl | hc
      · exact hP a b
      · exact ih bs c hc

theorem map_zipWith_eq {α β γ δ : Type} (f : α → β → γ) (g : γ → δ) (h : β → δ)
    (hg : ∀ a b, g (f a b) = h b) (as : List α) (bs : List β) (hlen : as.length = bs.length) :
    (List.zipWith f as bs).map g = bs.map h := by
  induction as generalizing bs with
  | nil =>
    cases bs with
    | nil => rfl
    | cons b bs => simp at hlen
  | cons a as ih =>
    cases bs with
    | nil => simp at hlen
    | cons b bs =>
      simp only [List.zipWith_cons_cons, List.map_cons, hg]
      rw [ih bs (by simpa using hlen)]

/-- For a non-empty RowList of size `S`, when the store answers every request
with one row per requested key and the visitor never fails, the call returns
without error after exactly `S` invocations of the visitor, whatever the order
in which the tasks finish. -/
theorem bigTableReadRowsParallel_visits_all {Row : Type}
    (ReadRows : Nat → RowSet → Except Error (List Row)) (action : Row → Option Error)
    (sched : List Nat) (keys : List String) (hk : keys ≠ [])
    (hstore : ∀ i ks, ∃ rows, ReadRows i (RowSet.RowList ks) = Except.ok rows ∧
      rows.length = ks.length)
    (haction : ∀ row, action row = none)
    (hsched : sched.Perm (List.range (keys.length / BtBatchQuerySize + 1))) :
    ∃ visited, BigTableReadRowsParallel ReadRows action sched (RowSet.RowList keys) =
      Outcome.returned none visited ∧ visited.length = keys.length := by
  have hparts := batches_rowList keys hk
  have hn : ((chunks keys).map RowSet.RowList).length = keys.length / BtBatchQuerySize + 1 := by
    rw [List.length_map, chunks_length]
  let answers := (List.range ((chunks keys).map RowSet.RowList).length).zipWith ReadRows
    ((chunks keys).map RowSet.RowList)
  have hans : answers = (List.range (chunks keys).length).zipWith
      (fun i ks => ReadRows i (RowSet.RowList ks)) (chunks keys) := by
    simp only [answers, List.length_map, List.zipWith_map_right]
  have hanslen : answers.length = keys.length / BtBatchQuerySize + 1 := by
    simp only [answers, List.length_zipWith, List.length_range, hn, Nat.min_self]
  have hperm : (sched.filterMap (fun i => answers[i]?)).Perm answers := by
    have h1 := List.Perm.filterMap (fun i => answers[i]?) hsched
    rw [← hanslen, filterMap_getElem?_range] at h1
    exact h1
  have hansok : ∀ a ∈ answers, ∃ rows, a = Except.ok rows := by
    rw [hans]
    apply zipWith_all
    intro i ks
    obtain ⟨rows, hrows, _⟩ := hstore i ks
    exact ⟨rows, hrows⟩
  have hfinok : ∀ a ∈ sched.filterMap (fun i => answers[i]?), ∃ rows, a = Except.ok rows :=
    fun a ha => hansok a (hperm.mem_iff.1 ha)
  have hpos : 0 < keys.length := List.length_pos.2 hk
  have hcap : ([] : List (List Row)).length + (sched.filterMap (fun i => answers[i]?)).length ≤
      chanCapacity keys.length := by
    rw [hperm.length_eq, hanslen]
    unfold chanCapacity BtBatchQuerySize
    simp only [List.length_nil]
    omega
  have hrun := runTasks_all_ok (chanCapacity keys.length) _ [] none hfinok hcap
  refine ⟨((sched.filterMap (fun i => answers[i]?)).map rowsOf).flatten, ?_, ?_⟩
  · simp only [BigTableReadRowsParallel, switchRowSet, hparts]
    rw [hrun]
    simp only [List.nil_append, drainChan_no_error action haction]
  · rw [List.length_flatten, List.map_map]
    rw [(hperm.map (List.length ∘ rowsOf)).sum_eq]
    have hmap : answers.map (List.length ∘ rowsOf) = (chunks keys).map List.length := by
      rw [hans]
      apply map_zipWith_eq
      · intro i ks
        obtain ⟨rows, hrows, hlen⟩ := hstore i ks
        simp [hrows, rowsOf, hlen]
      · simp
    rw [hmap, ← List.length_flatten, chunks_flatten]

theorem acyclic_of_isSome (grow : Nat → Nat) (order : List String) (ti : List typeInfo)
    (fuel : Nat) (hperm : order.Perm (linkKeys ti))
    (h : (GetContainedIn grow order ti fuel).isSome) : Acyclic ti := by
  obtain ⟨t, ht⟩ := Option.isSome_iff_exists.1 h
  exact GetContainedIn_acyclic grow order ti fuel t hperm ht

/-! ## The claims about `GetContainedIn` -/

/-- C1: for an acyclic list of containment edges `GetContainedIn` returns a
table, and `(d, a)` is a key of the returned table exactly when `a` is reachable
from `d` through one or more `containedInPlace` edges. -/
theorem getContainedIn_keys_iff_reach (grow : Nat → Nat) (order : List String)
    (ti : List typeInfo) (hperm : order.Perm (linkKeys ti)) (hac : Acyclic ti) :
    (∃ fuel t, GetContainedIn grow order ti fuel = some t) ∧
      ∀ fuel t, GetContainedIn grow order ti fuel = some t →
        ∀ d a, (t { Child := d, Parent := a }).isSome ↔ Reach ti d a :=
  ⟨GetContainedIn_terminates grow order ti hac,
    fun fuel t h d a => GetContainedIn_keys grow order ti fuel t hperm h d a⟩

theorem cityEdges_perm : ["City", "County"].Perm (linkKeys cityEdges) := by
  have h : linkKeys cityEdges = ["City", "County"] := by decide
  rw [h]

theorem cityEdges_acyclic : Acyclic cityEdges :=
  acyclic_of_isSome gcGrow ["City", "County"] cityEdges 3 cityEdges_perm (by decide)

/-- Witness of C1 on City → County → State. -/
theorem getContainedIn_keys_iff_reach_witness :
    (∃ fuel t, GetContainedIn gcGrow ["City", "County"] cityEdges fuel = some t) ∧
      ∀ fuel t, GetContainedIn gcGrow ["City", "County"] cityEdges fuel = some t →
        ∀ d a, (t { Child := d, Parent := a }).isSome ↔ Reach cityEdges d a :=
  getContainedIn_keys_iff_reach gcGrow ["City", "County"] cityEdges cityEdges_perm
    cityEdges_acyclic

/-- An entry of the returned table can be computed by running the traversal of
its child alone, with any sufficient amount of fuel. -/
theorem GetContainedIn_entry_eq (grow : Nat → Nat) (order : List String) (ti : List typeInfo)
    (fuel : Nat) (t : TypePair → Option (List String)) (hperm : order.Perm (linkKeys ti))
    (h : GetContainedIn grow order ti fuel = some t) (c a : String) (n : Nat)
    (v : Option (List String))
    (hev : (childTable grow ti c n).map (fun tc => tc { Child := c, Parent := a }) = some v) :
    t { Child := c, Parent := a } = v := by
  obtain ⟨tc, htc, hloc⟩ := GetContainedIn_local grow order ti fuel t hperm h c
  obtain ⟨tn, htn, hval⟩ := Option.map_eq_some'.1 hev
  rw [hloc, childTable_unique grow ti c fuel n tc tn htc htn]
  exact hval

/-- The diamond `A → B → D`, `A → C → D`: whatever the order of the children,
the entry of `(A, D)` is the chain of the path found last, `[C]`. -/
theorem getContainedIn_diamond (order : List String) (fuel : Nat)
    (t : TypePair → Option (List String)) (hperm : order.Perm (linkKeys diamondEdges))
    (h : GetContainedIn gcGrow order diamondEdges fuel = some t) :
    t { Child := "A", Parent := "D" } = some ["C"] :=
  GetContainedIn_entry_eq gcGrow order diamondEdges fuel t hperm h "A" "D" 5 _ (by decide)

/-- C2 (fails on the code): on the tree `deepTree`, with the capacity growth of
the standard runtime, every run of `GetContainedIn` returns for `(n0, m1)` the
list `n1, ..., n6, k2`, although `k2 → m1` is no edge of the input: the entry
was overwritten through a shared backing array by the path to `m2`. -/
theorem getContainedIn_deepTree_aliased (order : List String) (fuel : Nat)
    (t : TypePair → Option (List String)) (hperm : order.Perm (linkKeys deepTree))
    (h : GetContainedIn gcGrow order deepTree fuel = some t) :
    t { Child := "n0", Parent := "m1" } = some ["n1", "n2", "n3", "n4", "n5", "n6", "k2"] ∧
      ¬ Edge deepTree "k2" "m1" :=
  ⟨GetContainedIn_entry_eq gcGrow order deepTree fuel t hperm h "n0" "m1" 12 _ (by decide),
    by decide⟩

/-- Witness of C2's evaluation: the run that visits the children in the order of `linkKeys`. -/
theorem getContainedIn_deepTree_aliased_witness :
    ∃ t, GetContainedIn gcGrow (linkKeys deepTree) deepTree 12 = some t ∧
      t { Child := "n0", Parent := "m1" } = some ["n1", "n2", "n3", "n4", "n5", "n6", "k2"] ∧
      ¬ Edge deepTree "k2" "m1" := by
  have hsome : (GetContainedIn gcGrow (linkKeys deepTree) deepTree 12).isSome := by decide
  obtain ⟨t, ht⟩ := Option.isSome_iff_exists.1 hsome
  exact ⟨t, ht, getContainedIn_deepTree_aliased (linkKeys deepTree) 12 t (List.Perm.refl _) ht⟩

/-- C3 (as stated, refuted): for `A → B, B → C, A → C` the entry of the direct
edge `(A, C)` is `[B]`, not the empty list, in either order of the children. -/
theorem getContainedIn_triangle_overwritten :
    Edge triangleEdges "A" "C" ∧
      (GetContainedIn gcGrow ["A", "B"] triangleEdges 4).map
        (fun t => t { Child := "A", Parent := "C" }) = some (some ["B"]) ∧
      (GetContainedIn gcGrow ["B", "A"] triangleEdges 4).map
        (fun t => t { Child := "A", Parent := "C" }) = some (some ["B"]) := by
  decide

/-- C3 (amended): when `GetContainedIn` returns, every direct edge
`(child, parent)` is a key of the table, and its value is the empty list
whenever `parent` is not reachable from `child` through a longer path. -/
theorem getContainedIn_direct_edge (grow : Nat → Nat) (order : List String)
    (ti : List typeInfo) (fuel : Nat) (t : TypePair → Option (List String))
    (hperm : order.Perm (linkKeys ti)) (h : GetContainedIn grow order ti fuel = some t)
    (c p : String) (hedge : Edge ti c p) :
    (t { Child := c, Parent := p }).isSome ∧
      ((¬ ∃ x, Edge ti c x ∧ Reach ti x p) → t { Child := c, Parent := p } = some []) :=
  ⟨(GetContainedIn_keys grow order ti fuel t hperm h c p).2 (Relation.TransGen.single hedge),
    fun hshort => GetContainedIn_direct grow order ti fuel t h c p hedge hshort⟩

/-- Witness of C3 (amended): the direct edge City → County. -/
theorem getContainedIn_direct_edge_witness :
    ∃ t, GetContainedIn gcGrow ["City", "County"] cityEdges 3 = some t ∧
      Edge cityEdges "City" "County" ∧
      (t { Child := "City", Parent := "County" }).isSome ∧
      ((¬ ∃ x, Edge cityEdges "City" x ∧ Reach cityEdges x "County") →
        t { Child := "City", Parent := "County" } = some []) := by
  have hsome : (GetContainedIn gcGrow ["City", "County"] cityEdges 3).isSome := by decide
  obtain ⟨t, ht⟩ := Option.isSome_iff_exists.1 hsome
  exact ⟨t, ht, by decide,
    getContainedIn_direct_edge gcGrow ["City", "County"] cityEdges 3 t cityEdges_perm ht
      "City" "County" (by decide)⟩

theorem cycleEdges_perm : ["A", "B"].Perm (linkKeys cycleEdges) := by
  have h : linkKeys cycleEdges = ["A", "B"] := by decide
  rw [h]

theorem cycleEdges_cyclic : ¬ Acyclic cycleEdges := by
  intro hac
  apply hac "A"
  have h1 : Edge cycleEdges "A" "B" := by decide
  have h2 : Edge cycleEdges "B" "A" := by decide
  exact Relation.TransGen.head h1 (Relation.TransGen.single h2)

/-- C4 (as stated, refuted): for the cyclic input `A → B, B → A` the traversal
never finishes: no amount of fuel makes `GetContainedIn` return, in either
order of the children. -/
theorem getContainedIn_cycle_diverges :
    (¬ ∃ fuel t, GetContainedIn gcGrow ["A", "B"] cycleEdges fuel = some t) ∧
      ¬ ∃ fuel t, GetContainedIn gcGrow ["B", "A"] cycleEdges fuel = some t := by
  refine ⟨?_, ?_⟩
  · rintro ⟨fuel, t, h⟩
    exact cycleEdges_cyclic
      (GetContainedIn_acyclic gcGrow ["A", "B"] cycleEdges fuel t cycleEdges_perm h)
  · rintro ⟨fuel, t, h⟩
    exact cycleEdges_cyclic (GetContainedIn_acyclic gcGrow ["B", "A"] cycleEdges fuel t
      ((List.Perm.swap "A" "B" []).trans cycleEdges_perm) h)

/-- C4 (amended): the traversal of `GetContainedIn` terminates exactly on the
acyclic edge lists: it returns for some fuel if and only if no type reaches
itself through containment edges. -/
theorem getContainedIn_terminates_iff_acyclic (grow : Nat → Nat) (order : List String)
    (ti : List typeInfo) (hperm : order.Perm (linkKeys ti)) :
    (∃ fuel t, GetContainedIn grow order ti fuel = some t) ↔ Acyclic ti :=
  ⟨fun ⟨fuel, t, h⟩ => GetContainedIn_acyclic grow order ti fuel t hperm h,
    fun hac => GetContainedIn_terminates grow order ti hac⟩

/-- Witness of C4 (amended) on the two-cycle and on City → County → State. -/
theorem getContainedIn_terminates_iff_acyclic_witness :
    ((∃ fuel t, GetContainedIn gcGrow ["A", "B"] cycleEdges fuel = some t) ↔ Acyclic cycleEdges) ∧
      ((∃ fuel t, GetContainedIn gcGrow ["City", "County"] cityEdges fuel = some t) ↔
        Acyclic cityEdges) :=
  ⟨getContainedIn_terminates_iff_acyclic gcGrow ["A", "B"] cycleEdges cycleEdges_perm,
    getContainedIn_terminates_iff_acyclic gcGrow ["City", "County"] cityEdges cityEdges_perm⟩

/-- On a chain every child's traversal returns with fuel `ts.length`, so the
whole loop does. -/
theorem GetContainedIn_chain_terminates (grow : Nat → Nat) (order : List String)
    (ts : List String) (hnd : ts.Nodup) :
    ∃ t, GetContainedIn grow order (chainEdges ts) ts.length = some t := by
  obtain ⟨r, hr⟩ := closureLoop_of_traverse grow (readRecords (chainEdges ts)).link ts.length
    (startState (chainEdges ts)) order (fun c _ => by
      obtain ⟨tc, htc, _⟩ := childTable_chain grow ts hnd c ts.length (Nat.le_refl _)
      simp only [childTable, Option.map_eq_some'] at htc
      obtain ⟨r, hr, _⟩ := htc
      rw [hr]
      rfl)
    { result := (readRecords (chainEdges ts)).result, heap := [] }
  refine ⟨r.table, ?_⟩
  unfold GetContainedIn
  simp only
  rw [hr]
  rfl

/-- C5: for a chain `t0 → t1 → ... → tn` of pairwise distinct types
`GetContainedIn` returns a table whose keys are exactly the pairs `(ti, tj)`
with `i < j`, the value at `(ti, tj)` being `[t(i+1), ..., t(j-1)]`. -/
theorem getContainedIn_chain (grow : Nat → Nat) (order : List String) (ts : List String)
    (hnd : ts.Nodup) (hperm : order.Perm (linkKeys (chainEdges ts))) :
    (∃ fuel t, GetContainedIn grow order (chainEdges ts) fuel = some t) ∧
      ∀ fuel t, GetContainedIn grow order (chainEdges ts) fuel = some t →
        (∀ i j (_ : i < j) (_ : j < ts.length),
          t { Child := ts[i], Parent := ts[j] } = some ((ts.take j).drop (i + 1))) ∧
        (∀ k, t k ≠ none → ∃ i j, ∃ (_ : i < j) (_ : j < ts.length),
          k = { Child := ts[i], Parent := ts[j] }) := by
  refine ⟨⟨ts.length, GetContainedIn_chain_terminates grow order ts hnd⟩, ?_⟩
  intro fuel t h
  refine ⟨fun i j hij hj => ?_, fun k hk => ?_⟩
  · obtain ⟨tc, htc, hloc⟩ :=
      GetContainedIn_local grow order (chainEdges ts) fuel t hperm h ts[i]
    obtain ⟨tc', htc', hval, _⟩ :=
      childTable_chain grow ts hnd ts[i] (max fuel ts.length) (Nat.le_max_right _ _)
    have heq := childTable_unique grow (chainEdges ts) ts[i] fuel _ tc tc' htc htc'
    rw [hloc, heq]
    exact hval (ts.take i) ((ts.take j).drop (i + 1)) ts[j] (ts.drop (j + 1))
      (split_at_indices ts i j hij hj)
  · obtain ⟨c, a⟩ := k
    obtain ⟨tc, htc, hloc⟩ := GetContainedIn_local grow order (chainEdges ts) fuel t hperm h c
    obtain ⟨tc', htc', _, hkeys⟩ :=
      childTable_chain grow ts hnd c (max fuel ts.length) (Nat.le_max_right _ _)
    have heq := childTable_unique grow (chainEdges ts) c fuel _ tc tc' htc htc'
    rw [hloc, heq] at hk
    obtain ⟨pre, mid, post, hts⟩ := hkeys a hk
    obtain ⟨i, j, hij, hj, hi, hj'⟩ := indices_of_split ts pre mid post c a hts
    exact ⟨i, j, hij, hj, by rw [hi, hj']⟩

/-- Witness of C5, the example of the specification: for City → County,
County → State the table is `(City, County) ↦ []`, `(County, State) ↦ []`,
`(City, State) ↦ [County]` and has no other key. -/
theorem getContainedIn_chain_witness :
    ∃ t, GetContainedIn gcGrow ["City", "County"] cityEdges 3 = some t ∧
      t { Child := "City", Parent := "County" } = some [] ∧
      t { Child := "County", Parent := "State" } = some [] ∧
      t { Child := "City", Parent := "State" } = some ["County"] ∧
      (∀ k, t k ≠ none → ∃ i j, ∃ (_ : i < j) (_ : j < ["City", "County", "State"].length),
        k = { Child := ["City", "County", "State"][i], Parent := ["City", "County", "State"][j] }) := by
  have hsome : (GetContainedIn gcGrow ["City", "County"] cityEdges 3).isSome := by decide
  obtain ⟨t, ht⟩ := Option.isSome_iff_exists.1 hsome
  have hthm := (getContainedIn_chain gcGrow ["City", "County"] ["City", "County", "State"]
    (by decide) cityEdges_perm).2 3 t ht
  exact ⟨t, ht, hthm.1 0 1 (by decide) (by decide), hthm.1 1 2 (by decide) (by decide),
    hthm.1 0 2 (by decide) (by decide), hthm.2⟩

/-! ## The claims about the batches of `BigTableReadRowsParallel` -/

theorem spawnedBatches_length (rowSet : RowSet) (rowList : List String)
    (rowRangeList : List RowRange) (rowSetSize : Nat)
    (h : switchRowSet rowSet = some (rowList, rowRangeList, rowSetSize)) :
    (spawnedBatches rowSet).map List.length = some (rowSetSize / BtBatchQuerySize + 1) := by
  obtain ⟨hsize, parts, hparts, hentries⟩ :=
    spawnedBatches_entries rowSet rowList rowRangeList rowSetSize h
  rw [hparts, Option.map_some', hsize, ← chunks_length, ← hentries, List.length_map]

/-- C6 (fails on the code): the loop `for i := 0; i <= rowSetSize/BtBatchQuerySize; i++`
spawns `S / 1000 + 1` tasks for a RowList or RowRangeList of size `S`, not
`⌈S / 1000⌉`: one task for the empty RowSet and two for a RowSet of size 1000. -/
theorem spawnedBatches_count :
    (∀ keys : List String, (spawnedBatches (RowSet.RowList keys)).map List.length =
      some (keys.length / BtBatchQuerySize + 1)) ∧
    (∀ ranges : List RowRange, (spawnedBatches (RowSet.RowRangeList ranges)).map List.length =
      some (ranges.length / BtBatchQuerySize + 1)) ∧
    (spawnedBatches (RowSet.RowList [])).map List.length = some 1 ∧
    (spawnedBatches (RowSet.RowList (List.replicate 1000 "k"))).map List.length = some 2 := by
  have hkeys : ∀ keys : List String, (spawnedBatches (RowSet.RowList keys)).map List.length =
      some (keys.length / BtBatchQuerySize + 1) :=
    fun keys => spawnedBatches_length (RowSet.RowList keys) keys [] keys.length rfl
  refine ⟨hkeys, fun ranges =>
    spawnedBatches_length (RowSet.RowRangeList ranges) [] ranges ranges.length rfl, ?_, ?_⟩
  · exact hkeys []
  · rw [hkeys, List.length_replicate]
    rfl

theorem getElem_chunks {α : Type} (xs : List α) (i : Nat) (h : i < (chunks xs).length) :
    (chunks xs)[i] = (xs.take (batchRight xs.length i)).drop (batchLeft i) := by
  simp [chunks]

theorem partitionOk_of_switch (rowSet : RowSet) (rowList : List String)
    (rowRangeList : List RowRange) (rowSetSize : Nat)
    (h : switchRowSet rowSet = some (rowList, rowRangeList, rowSetSize)) :
    PartitionOk rowSet rowSetSize := by
  obtain ⟨hsize, parts, hparts, hentries⟩ :=
    spawnedBatches_entries rowSet rowList rowRangeList rowSetSize h
  refine ⟨parts, hparts, ?_, ?_, fun i hi => batch_bounds rowSetSize i hi⟩
  · rw [hentries, chunks_flatten]
  · intro i hi
    have hi' : i < (chunks rowSet.entries).length := by
      rw [← hentries, List.length_map]
      exact hi
    have := getElem_chunks rowSet.entries i hi'
    rw [← hsize] at this
    rw [← this]
    simp only [← hentries, List.getElem_map]

/-- C7: the batches built for a RowList or RowRangeList are the contiguous
slices `[i*1000 : min((i+1)*1000, S)]` of the RowSet, their concatenation in
index order is the RowSet itself, and the slice bounds always satisfy
`left ≤ right ≤ S`, so that no slice expression is out of range. -/
theorem batches_partition :
    (∀ keys : List String, PartitionOk (RowSet.RowList keys) keys.length) ∧
    (∀ ranges : List RowRange, PartitionOk (RowSet.RowRangeList ranges) ranges.length) :=
  ⟨fun keys => partitionOk_of_switch (RowSet.RowList keys) keys [] keys.length rfl,
    fun ranges => partitionOk_of_switch (RowSet.RowRangeList ranges) [] ranges ranges.length rfl⟩

theorem batch_size_of_switch (rowSet : RowSet) (rowList : List String)
    (rowRangeList : List RowRange) (rowSetSize : Nat)
    (h : switchRowSet rowSet = some (rowList, rowRangeList, rowSetSize)) :
    ∃ parts, spawnedBatches rowSet = some parts ∧
      ∀ p ∈ parts, p.entries.length ≤ BtBatchQuerySize := by
  obtain ⟨_, parts, hparts, hentries⟩ :=
    spawnedBatches_entries rowSet rowList rowRangeList rowSetSize h
  refine ⟨parts, hparts, fun p hp => ?_⟩
  apply chunks_le rowSet.entries
  rw [← hentries]
  exact List.mem_map_of_mem _ hp

/-- C8: every batch built for a RowList or RowRangeList has at most
`BtBatchQuerySize = 1000` entries. -/
theorem batch_size_le :
    BtBatchQuerySize = 1000 ∧
    (∀ keys : List String, ∃ parts, spawnedBatches (RowSet.RowList keys) = some parts ∧
      ∀ p ∈ parts, p.entries.length ≤ BtBatchQuerySize) ∧
    (∀ ranges : List RowRange, ∃ parts, spawnedBatches (RowSet.RowRangeList ranges) = some parts ∧
      ∀ p ∈ parts, p.entries.length ≤ BtBatchQuerySize) :=
  ⟨rfl, fun keys => batch_size_of_switch (RowSet.RowList keys) keys [] keys.length rfl,
    fun ranges => batch_size_of_switch (RowSet.RowRangeList ranges) [] ranges ranges.length rfl⟩

/-- C9 (fails on the code): the test `len(rowList) > 0` of line 282 takes an
empty RowList for a RowRangeList, so the one batch of the empty RowList is an
empty RowRangeList; the batches of a non-empty RowList are RowLists and the
batches of a RowRangeList are RowRangeLists. -/
theorem batch_variant :
    spawnedBatches (RowSet.RowList []) = some [RowSet.RowRangeList []] ∧
    (∀ keys : List String, keys ≠ [] → ∃ parts, spawnedBatches (RowSet.RowList keys) = some parts ∧
      ∀ p ∈ parts, ∃ ks, p = RowSet.RowList ks) ∧
    (∀ ranges : List RowRange, ∃ parts, spawnedBatches (RowSet.RowRangeList ranges) = some parts ∧
      ∀ p ∈ parts, ∃ rs, p = RowSet.RowRangeList rs) := by
  refine ⟨by decide, fun keys hk => ⟨_, spawnedBatches_rowList keys hk, fun p hp => ?_⟩,
    fun ranges => ⟨_, spawnedBatches_rowRangeList ranges, fun p hp => ?_⟩⟩
  · obtain ⟨ks, _, rfl⟩ := List.mem_map.1 hp
    exact ⟨ks, rfl⟩
  · obtain ⟨rs, _, rfl⟩ := List.mem_map.1 hp
    exact ⟨rs, rfl⟩

/-- C10 (fails on the code): for the empty RowList one task is spawned while
`rowChan` has capacity 0.  If the store answers the request, the task blocks on
the send and the call never returns; if the store fails, the call returns that
error.  In no case does it return without error. -/
theorem bigTableReadRowsParallel_empty_rowList {Row : Type}
    (ReadRows : Nat → RowSet → Except Error (List Row)) (action : Row → Option Error) :
    BigTableReadRowsParallel ReadRows action [0] (RowSet.RowList []) =
      match ReadRows 0 (RowSet.RowRangeList []) with
      | Except.ok _ => Outcome.blocked
      | Except.error e => Outcome.returned (some e) [] := by
  have hb : batches [] [] 0 = some [RowSet.RowRangeList []] := by decide
  have hfin : List.filterMap (fun i => (List.zipWith ReadRows
      (List.range [RowSet.RowRangeList []].length) [RowSet.RowRangeList []])[i]?) [0] =
      [ReadRows 0 (RowSet.RowRangeList [])] := rfl
  simp only [BigTableReadRowsParallel, switchRowSet, List.length_nil, hb, chanCapacity, hfin]
  cases ReadRows 0 (RowSet.RowRangeList []) with
  | ok rows => rfl
  | error e => rfl

/-! ## Records with another predicate -/

theorem foldl_recordStep_filter (ti : List typeInfo) (v : Vars) :
    (ti.filter (fun info => decide (info.Predicate = "containedInPlace"))).foldl recordStep v =
      ti.foldl recordStep v := by
  induction ti generalizing v with
  | nil => rfl
  | cons info rest ih =>
    by_cases hp : info.Predicate = "containedInPlace"
    · rw [List.filter_cons_of_pos (by simpa using hp), List.foldl_cons, List.foldl_cons, ih]
    · rw [List.filter_cons_of_neg (by simpa using hp), List.foldl_cons, ih]
      have : recordStep v info = v := by simp [recordStep, hp]
      rw [this]

theorem readRecords_filter (ti : List typeInfo) :
    readRecords (ti.filter (fun info => decide (info.Predicate = "containedInPlace"))) =
      readRecords ti :=
  foldl_recordStep_filter ti Vars.init

theorem linkKeys_filter (ti : List typeInfo) :
    linkKeys (ti.filter (fun info => decide (info.Predicate = "containedInPlace"))) =
      linkKeys ti := by
  simp [linkKeys, List.filter_filter]

/-- C15: the table `GetContainedIn` returns for a list of records is the one it
returns for the sub-list of the records whose predicate is exactly
`containedInPlace` (and it returns for the one exactly when it returns for the
other): records with another predicate, wherever they stand, add no key and
change no value.  The keys of `link`, hence the possible orders of the
traversal, are the same too. -/
theorem getContainedIn_ignores_other_predicates (grow : Nat → Nat) (order : List String)
    (ti : List typeInfo) (fuel : Nat) :
    GetContainedIn grow order ti fuel =
        GetContainedIn grow order
          (ti.filter (fun info => decide (info.Predicate = "containedInPlace"))) fuel ∧
      linkKeys ti =
        linkKeys (ti.filter (fun info => decide (info.Predicate = "containedInPlace"))) := by
  refine ⟨?_, (linkKeys_filter ti).symm⟩
  unfold GetContainedIn
  rw [readRecords_filter]

/-! ## Termination and independence of the order of the children -/

theorem GetContainedIn_fuel_mono (grow : Nat → Nat) (order : List String) (ti : List typeInfo)
    (n m : Nat) (hnm : n ≤ m) (t : TypePair → Option (List String))
    (h : GetContainedIn grow order ti n = some t) : GetContainedIn grow order ti m = some t := by
  simp only [GetContainedIn, Option.map_eq_some'] at h ⊢
  obtain ⟨r, hr, rfl⟩ := h
  exact ⟨r, closureLoop_fuel_mono _ _ _ _ hnm _ _ _ hr, rfl⟩

/-- C19: on an acyclic list of containment edges the work-list traversal of
`GetContainedIn` terminates although it keeps no visited set: there is a
number of steps within which the loop of every child finishes, whatever the
order of the children, the growth policy of `append` and the state the loop is
started in. -/
theorem getContainedIn_worklist_terminates (ti : List typeInfo) (hac : Acyclic ti) :
    ∃ N, ∀ fuel, N ≤ fuel → ∀ (grow : Nat → Nat),
      (∀ (c : String) (st : State),
        ∃ r, traverse grow (readRecords ti).link c fuel ((readRecords ti).link c) st = some r) ∧
      ∀ order : List String, ∃ t, GetContainedIn grow order ti fuel = some t := by
  have hwf := wf_of_acyclic (readRecords ti).link (linkKeys ti)
    (fun x hx => by
      by_contra hmem
      exact hx (link_eq_nil_of_not_mem_linkKeys ti x hmem))
    (acyclic_par ti hac)
  obtain ⟨W, hW⟩ := exists_walks (readRecords ti).link hwf
  refine ⟨((linkKeys ti).map (fun c => (((readRecords ti).link c).map W).sum)).sum, ?_⟩
  intro fuel hfuel grow
  have hle : ∀ c, (((readRecords ti).link c).map W).sum ≤ fuel := by
    intro c
    by_cases hc : c ∈ linkKeys ti
    · exact Nat.le_trans (le_sum_map_of_mem
        (fun c => (((readRecords ti).link c).map W).sum) (linkKeys ti) c hc) hfuel
    · rw [link_eq_nil_of_not_mem_linkKeys ti c hc]
      simp
  refine ⟨fun c st => traverse_terminates grow _ c W hW fuel _ st (hle c), fun order => ?_⟩
  obtain ⟨r, hr⟩ := closureLoop_terminates grow (readRecords ti).link W hW fuel order
    (fun c _ => hle c) { result := (readRecords ti).result, heap := [] }
  refine ⟨r.table, ?_⟩
  unfold GetContainedIn
  simp only
  rw [hr]
  rfl

theorem diamondEdges_perm : ["A", "B", "C"].Perm (linkKeys diamondEdges) := by
  have h : linkKeys diamondEdges = ["A", "B", "C"] := by decide
  rw [h]

theorem diamondEdges_acyclic : Acyclic diamondEdges :=
  acyclic_of_isSome gcGrow ["A", "B", "C"] diamondEdges 4 diamondEdges_perm (by decide)

/-- Witness of C19 on the diamond, where the loop of child `A` takes `D` from
the work list twice: three steps are not enough for the three types reachable
from `A`, four are. -/
theorem getContainedIn_worklist_terminates_witness :
    (∃ N, ∀ fuel, N ≤ fuel → ∀ (grow : Nat → Nat),
      (∀ (c : String) (st : State), ∃ r, traverse grow (readRecords diamondEdges).link c fuel
        ((readRecords diamondEdges).link c) st = some r) ∧
      ∀ order : List String, ∃ t, GetContainedIn grow order diamondEdges fuel = some t) ∧
    (traverse gcGrow (readRecords diamondEdges).link "A" 3 ((readRecords diamondEdges).link "A")
      (startState diamondEdges)).isSome = false ∧
    (traverse gcGrow (readRecords diamondEdges).link "A" 4 ((readRecords diamondEdges).link "A")
      (startState diamondEdges)).isSome = true :=
  ⟨getContainedIn_worklist_terminates diamondEdges diamondEdges_acyclic, by decide, by decide⟩

/-- C20: on an acyclic list of containment edges the table returned by
`GetContainedIn` does not depend on the order in which the children are
traversed: two orders, both permutations of the keys of `link`, both return,
and whatever they return (with whatever fuel) is the same table. -/
theorem getContainedIn_order_independent (grow : Nat → Nat) (ti : List typeInfo)
    (order₁ order₂ : List String) (hac : Acyclic ti) (h₁ : order₁.Perm (linkKeys ti))
    (h₂ : order₂.Perm (linkKeys ti)) :
    (∃ fuel t, GetContainedIn grow order₁ ti fuel = some t ∧
      GetContainedIn grow order₂ ti fuel = some t) ∧
    ∀ fuel₁ fuel₂ t₁ t₂, GetContainedIn grow order₁ ti fuel₁ = some t₁ →
      GetContainedIn grow order₂ ti fuel₂ = some t₂ → t₁ = t₂ := by
  have huniq : ∀ fuel₁ fuel₂ t₁ t₂, GetContainedIn grow order₁ ti fuel₁ = some t₁ →
      GetContainedIn grow order₂ ti fuel₂ = some t₂ → t₁ = t₂ := by
    intro fuel₁ fuel₂ t₁ t₂ ht₁ ht₂
    funext k
    obtain ⟨c, a⟩ := k
    obtain ⟨tc₁, htc₁, hloc₁⟩ := GetContainedIn_local grow order₁ ti fuel₁ t₁ h₁ ht₁ c
    obtain ⟨tc₂, htc₂, hloc₂⟩ := GetContainedIn_local grow order₂ ti fuel₂ t₂ h₂ ht₂ c
    rw [hloc₁, hloc₂, childTable_unique grow ti c fuel₁ fuel₂ tc₁ tc₂ htc₁ htc₂]
  refine ⟨?_, huniq⟩
  obtain ⟨f₁, t₁, ht₁⟩ := GetContainedIn_terminates grow order₁ ti hac
  obtain ⟨f₂, t₂, ht₂⟩ := GetContainedIn_terminates grow order₂ ti hac
  have heq := huniq f₁ f₂ t₁ t₂ ht₁ ht₂
  subst heq
  exact ⟨max f₁ f₂, t₁,
    GetContainedIn_fuel_mono grow order₁ ti f₁ _ (Nat.le_max_left _ _) t₁ ht₁,
    GetContainedIn_fuel_mono grow order₂ ti f₂ _ (Nat.le_max_right _ _) t₁ ht₂⟩

theorem diamondEdges_perm_rev : ["C", "B", "A"].Perm (linkKeys diamondEdges) := by
  have h : linkKeys diamondEdges = ["A", "B", "C"] := by decide
  rw [h]
  decide

/-- Witness of C20 on the diamond, visited as `A, B, C` and as `C, B, A`. -/
theorem getContainedIn_order_independent_witness :
    (∃ fuel t, GetContainedIn gcGrow ["A", "B", "C"] diamondEdges fuel = some t ∧
      GetContainedIn gcGrow ["C", "B", "A"] diamondEdges fuel = some t) ∧
    ∀ fuel₁ fuel₂ t₁ t₂, GetContainedIn gcGrow ["A", "B", "C"] diamondEdges fuel₁ = some t₁ →
      GetContainedIn gcGrow ["C", "B", "A"] diamondEdges fuel₂ = some t₂ → t₁ = t₂ :=
  getContainedIn_order_independent gcGrow diamondEdges ["A", "B", "C"] ["C", "B", "A"]
    diamondEdges_acyclic diamondEdges_perm diamondEdges_perm_rev

/-! ## The parse error and the end nodes -/

/-- C14 (fails on the code): once the file has been read, `GetContainedIn`
never returns an error, whatever `json.Unmarshal` reports: it returns the table
of the records that were decoded.  For a file whose second record does not
decode, the table of the first record is returned. -/
theorem getContainedIn_drops_parse_error :
    (∀ (content : String) (Unmarshal : String → List typeInfo × Option Error)
        (grow : Nat → Nat) (order : List String) (fuel : Nat),
      GetContainedInFile (Except.ok content) Unmarshal grow order fuel =
          (GetContainedIn grow order (Unmarshal content).1 fuel).map Except.ok ∧
        ∀ e, GetContainedInFile (Except.ok content) Unmarshal grow order fuel ≠
          some (Except.error e)) ∧
    (badTypeUnmarshal badTypeJSON).2 ≠ none ∧
    ["City"].Perm (linkKeys (badTypeUnmarshal badTypeJSON).1) ∧
    ∃ t, GetContainedInFile (Except.ok badTypeJSON) badTypeUnmarshal gcGrow ["City"] 2 =
        some (Except.ok t) ∧ t { Child := "City", Parent := "County" } = some [] := by
  refine ⟨fun content Unmarshal grow order fuel => ⟨rfl, fun e h => ?_⟩, by decide, by decide, ?_⟩
  · simp only [GetContainedInFile, Option.map_eq_some'] at h
    obtain ⟨t, _, ht⟩ := h
    cases ht
  · have hsome : (GetContainedIn gcGrow ["City"] (badTypeUnmarshal badTypeJSON).1 2).isSome := by
      decide
    obtain ⟨t, ht⟩ := Option.isSome_iff_exists.1 hsome
    refine ⟨t, by simp only [GetContainedInFile, ht, Option.map_some'], ?_⟩
    have hev : (GetContainedIn gcGrow ["City"] (badTypeUnmarshal badTypeJSON).1 2).map
        (fun t => t { Child := "City", Parent := "County" }) = some (some []) := by decide
    rw [ht] at hev
    exact Option.some.inj hev

theorem foldl_recordStep_all (ti : List typeInfo) (v : Vars) (x : String) :
    x ∈ (ti.foldl recordStep v).all ↔
      x ∈ v.all ∨ ∃ info ∈ ti, info.Predicate = "containedInPlace" ∧
        (info.SubType = x ∨ info.ObjType = x) := by
  induction ti generalizing v with
  | nil => simp
  | cons info rest ih =>
    rw [List.foldl_cons, ih]
    by_cases hp : info.Predicate = "containedInPlace"
    · simp only [recordStep, hp, if_true, List.mem_append, List.mem_cons, List.mem_singleton,
        List.not_mem_nil, or_false, exists_eq_or_imp, true_and]
      constructor
      · rintro ((h | h | h) | h)
        · exact Or.inl h
        · exact Or.inr (Or.inl (Or.inl h.symm))
        · exact Or.inr (Or.inl (Or.inr h.symm))
        · exact Or.inr (Or.inr h)
      · rintro (h | (h | h) | h)
        · exact Or.inl (Or.inl h)
        · exact Or.inl (Or.inr (Or.inl h.symm))
        · exact Or.inl (Or.inr (Or.inr h.symm))
        · exact Or.inr h
    · simp [recordStep, hp]

theorem mem_readRecords_all (ti : List typeInfo) (x : String) :
    x ∈ (readRecords ti).all ↔ ∃ y, Edge ti x y ∨ Edge ti y x := by
  unfold readRecords
  rw [foldl_recordStep_all]
  simp only [Vars.init, List.not_mem_nil, false_or, Edge]
  constructor
  · rintro ⟨info, hi, hp, h | h⟩
    · exact ⟨info.ObjType, Or.inl ⟨info, hi, hp, h, rfl⟩⟩
    · exact ⟨info.SubType, Or.inr ⟨info, hi, hp, rfl, h⟩⟩
  · rintro ⟨y, ⟨info, hi, hp, hs, _⟩ | ⟨info, hi, hp, _, ho⟩⟩
    · exact ⟨info, hi, hp, Or.inl hs⟩
    · exact ⟨info, hi, hp, Or.inr ho⟩

theorem link_eq_nil_iff (ti : List typeInfo) (x : String) :
    (readRecords ti).link x = [] ↔ ¬ ∃ y, Edge ti x y := by
  constructor
  · rintro h ⟨y, hy⟩
    have := (mem_readRecords_link ti x y).2 hy
    rw [h] at this
    simp at this
  · intro h
    apply List.eq_nil_iff_forall_not_mem.2
    intro y hy
    exact h ⟨y, (mem_readRecords_link ti x y).1 hy⟩

/-- C16 (amended): the end-node list computed in lines 189-194 contains a type
name exactly when the name occurs in some `containedInPlace` edge, as child or
as parent, and is the child of none; for City → County, County → State it is
`[State]`. -/
theorem endNodes_iff (ti : List typeInfo) (x : String) :
    (x ∈ endNodes (readRecords ti) ↔
      (∃ y, Edge ti x y ∨ Edge ti y x) ∧ ¬ ∃ y, Edge ti x y) ∧
    endNodes (readRecords cityEdges) = ["State"] := by
  refine ⟨?_, by decide⟩
  unfold endNodes
  rw [List.mem_filter, mem_readRecords_all, decide_eq_true_eq, link_eq_nil_iff]

/-- C16 (as stated, refuted): the end nodes are no part of what `GetContainedIn`
returns.  The inputs `A → B` and `A → B, A → B` have the same output, the table
`(A, B) ↦ []`, while the end-node lists computed for them are `[B]` and
`[B, B]`. -/
theorem endNodes_not_returned :
    GetContainedIn gcGrow ["A"] [edge "A" "B"] 2 =
        GetContainedIn gcGrow ["A"] [edge "A" "B", edge "A" "B"] 2 ∧
      (GetContainedIn gcGrow ["A"] [edge "A" "B"] 2).isSome = true ∧
      endNodes (readRecords [edge "A" "B"]) = ["B"] ∧
      endNodes (readRecords [edge "A" "B", edge "A" "B"]) = ["B", "B"] := by
  refine ⟨?_, by decide, by decide, by decide⟩
  have h1 : GetContainedIn gcGrow ["A"] [edge "A" "B"] 2 =
      some (State.table (startState [edge "A" "B"])) := by
    rfl
  have h2 : GetContainedIn gcGrow ["A"] [edge "A" "B", edge "A" "B"] 2 =
      some (State.table (startState [edge "A" "B", edge "A" "B"])) := by
    rfl
  rw [h1, h2]
  congr 1
  funext k
  simp only [State.table, startState, readRecords_result]
  simp

/-! ## Rejected variants, store failures and the drain loop -/

/-- C11: for a `RowSet` that is neither a RowList nor a RowRangeList the call
returns an error at once: no task is spawned, so no request reaches the store
(the result does not depend on the store), and the visitor is not invoked. -/
theorem bigTableReadRowsParallel_unsupported {Row : Type}
    (ReadRows : Nat → RowSet → Except Error (List Row)) (action : Row → Option Error)
    (sched : List Nat) (rowSet : RowSet) (hkeys : ∀ keys, rowSet ≠ RowSet.RowList keys)
    (hranges : ∀ ranges, rowSet ≠ RowSet.RowRangeList ranges) :
    BigTableReadRowsParallel ReadRows action sched rowSet =
        Outcome.returned (some "unsupported RowSet type") [] ∧
      spawnedBatches rowSet = some [] := by
  cases rowSet with
  | RowList keys => exact absurd rfl (hkeys keys)
  | RowRangeList ranges => exact absurd rfl (hranges ranges)
  | RowRange r => exact ⟨rfl, rfl⟩
  | nil => exact ⟨rfl, rfl⟩

/-- Witness of C11: a single `RowRange` and the nil `RowSet`, with a store that
would answer and a visitor that would fail. -/
theorem bigTableReadRowsParallel_unsupported_witness :
    (BigTableReadRowsParallel (fun _ _ => Except.ok ["row"]) (fun _ => some "visited") [0]
        (RowSet.RowRange { start := "a", limit := "b" }) =
          Outcome.returned (some "unsupported RowSet type") [] ∧
      spawnedBatches (RowSet.RowRange { start := "a", limit := "b" }) = some []) ∧
    (BigTableReadRowsParallel (fun _ _ => Except.ok ["row"]) (fun _ => some "visited") [0]
        RowSet.nil = Outcome.returned (some "unsupported RowSet type") [] ∧
      spawnedBatches RowSet.nil = some []) :=
  ⟨bigTableReadRowsParallel_unsupported _ _ _ _ (fun _ h => by cases h) (fun _ h => by cases h),
    bigTableReadRowsParallel_unsupported _ _ _ _ (fun _ h => by cases h) (fun _ h => by cases h)⟩

theorem runTasks_error_kept {Row : Type} (capacity : Nat) (l : List (Except Error (List Row)))
    (chan : List (List Row)) (e0 : Error)
    (hcap : chan.length + l.countP Except.isOk ≤ capacity) :
    ∃ chan', runTasks capacity l chan (some e0) = some (some e0, chan') := by
  induction l generalizing chan with
  | nil => exact ⟨chan, rfl⟩
  | cons a l ih =>
    cases a with
    | error e =>
      simp only [runTasks]
      apply ih
      simpa [List.countP_cons, Except.isOk, Except.toBool] using hcap
    | ok rows =>
      have hcap' : chan.length + (l.countP Except.isOk + 1) ≤ capacity := by
        simpa [List.countP_cons, Except.isOk, Except.toBool] using hcap
      have hlt : chan.length < capacity := by omega
      simp only [runTasks, hlt, if_true]
      apply ih
      simp only [List.length_append, List.length_singleton]
      omega

theorem runTasks_first_error {Row : Type} (capacity : Nat) (l : List (Except Error (List Row)))
    (chan : List (List Row)) (hcap : chan.length + l.countP Except.isOk ≤ capacity)
    (herr : ∃ e, Except.error e ∈ l) :
    ∃ e chan', Except.error e ∈ l ∧ runTasks capacity l chan none = some (some e, chan') := by
  induction l generalizing chan with
  | nil =>
    obtain ⟨e, he⟩ := herr
    simp at he
  | cons a l ih =>
    cases a with
    | error e =>
      have hcap' : chan.length + l.countP Except.isOk ≤ capacity := by
        simpa [List.countP_cons, Except.isOk, Except.toBool] using hcap
      obtain ⟨chan', hrun⟩ := runTasks_error_kept capacity l chan e hcap'
      exact ⟨e, chan', List.mem_cons_self _ _, by simpa [runTasks] using hrun⟩
    | ok rows =>
      have hcap' : chan.length + (l.countP Except.isOk + 1) ≤ capacity := by
        simpa [List.countP_cons, Except.isOk, Except.toBool] using hcap
      have hlt : chan.length < capacity := by omega
      have herr' : ∃ e, Except.error e ∈ l := by
        obtain ⟨e, he⟩ := herr
        rcases List.mem_cons.1 he with h | h
        · cases h
        · exact ⟨e, h⟩
      obtain ⟨e, chan', hmem, hrun⟩ := ih (chan ++ [rows])
        (by simp only [List.length_append, List.length_singleton]; omega) herr'
      exact ⟨e, chan', List.mem_cons_of_mem _ hmem, by simpa [runTasks, hlt] using hrun⟩

theorem countP_lt_length_of_mem {α : Type} (p : α → Bool) (l : List α) (a : α) (ha : a ∈ l)
    (hp : p a = false) : l.countP p < l.length := by
  have hle : l.countP p ≤ l.length := List.countP_le_length p
  have hne : l.countP p ≠ l.length := by
    intro h
    have := (List.countP_eq_length.1 h) a ha
    rw [hp] at this
    cases this
  omega

theorem batches_of_switch (rowSet : RowSet) (rowList : List String)
    (rowRangeList : List RowRange) (rowSetSize : Nat)
    (h : switchRowSet rowSet = some (rowList, rowRangeList, rowSetSize)) :
    ∃ parts, batches rowList rowRangeList rowSetSize = some parts ∧
      spawnedBatches rowSet = some parts ∧
      parts.length = rowSetSize / BtBatchQuerySize + 1 := by
  obtain ⟨_, parts, hparts, _⟩ := spawnedBatches_entries rowSet rowList rowRangeList rowSetSize h
  have hlen := spawnedBatches_length rowSet rowList rowRangeList rowSetSize h
  rw [hparts, Option.map_some', Option.some.injEq] at hlen
  refine ⟨parts, ?_, hparts, hlen⟩
  simpa only [spawnedBatches, h] using hparts

theorem finished_perm {Row : Type} (answers : List (Except Error (List Row))) (sched : List Nat)
    (hsched : sched.Perm (List.range answers.length)) :
    (sched.filterMap (fun i => answers[i]?)).Perm answers := by
  have h1 := List.Perm.filterMap (fun i => answers[i]?) hsched
  rw [filterMap_getElem?_range] at h1
  exact h1

/-- C12: for an accepted `RowSet`, if the request of at least one batch fails,
the call returns the error of a failed batch and the visitor is invoked on no
row, in whatever order the tasks finish. -/
theorem bigTableReadRowsParallel_store_failure {Row : Type}
    (ReadRows : Nat → RowSet → Except Error (List Row)) (action : Row → Option Error)
    (sched : List Nat) (rowSet : RowSet) (rowList : List String)
    (rowRangeList : List RowRange) (rowSetSize : Nat)
    (hsw : switchRowSet rowSet = some (rowList, rowRangeList, rowSetSize))
    (hsched : sched.Perm (List.range (rowSetSize / BtBatchQuerySize + 1)))
    (hfail : ∃ parts i part e, spawnedBatches rowSet = some parts ∧ parts[i]? = some part ∧
      ReadRows i part = Except.error e) :
    ∃ parts i part e, spawnedBatches rowSet = some parts ∧ parts[i]? = some part ∧
      ReadRows i part = Except.error e ∧
      BigTableReadRowsParallel ReadRows action sched rowSet = Outcome.returned (some e) [] := by
  obtain ⟨parts, hb, hsp, hlen⟩ := batches_of_switch rowSet rowList rowRangeList rowSetSize hsw
  obtain ⟨parts', i, part, e, hsp', hpart, hread⟩ := hfail
  rw [hsp] at hsp'
  cases hsp'
  have hanslen : ((List.range parts.length).zipWith ReadRows parts).length =
      rowSetSize / BtBatchQuerySize + 1 := by
    simp [hlen]
  have hilt : i < parts.length := by
    by_contra hge
    rw [List.getElem?_eq_none (Nat.le_of_not_lt hge)] at hpart
    cases hpart
  have hmem : Except.error e ∈ (List.range parts.length).zipWith ReadRows parts :=
    List.mem_iff_getElem?.2 ⟨i, List.getElem?_zipWith_eq_some.2
      ⟨i, part, List.getElem?_range hilt, hpart, hread⟩⟩
  have hperm := finished_perm ((List.range parts.length).zipWith ReadRows parts) sched
    (by rw [hanslen]; exact hsched)
  have hcount : ([] : List (List Row)).length +
      (sched.filterMap (fun i =>
        ((List.range parts.length).zipWith ReadRows parts)[i]?)).countP Except.isOk ≤
      chanCapacity rowSetSize := by
    rw [hperm.countP_eq]
    have := countP_lt_length_of_mem Except.isOk _ _ hmem rfl
    rw [hanslen] at this
    unfold chanCapacity BtBatchQuerySize at *
    simp only [List.length_nil]
    omega
  obtain ⟨e', chan', hmem', hrun⟩ := runTasks_first_error (chanCapacity rowSetSize) _ []
    hcount ⟨e, hperm.mem_iff.2 hmem⟩
  obtain ⟨j, hj⟩ := List.mem_iff_getElem?.1 (hperm.mem_iff.1 hmem')
  obtain ⟨x, part', hx, hpart', hread'⟩ := List.getElem?_zipWith_eq_some.1 hj
  have hxj : x = j := by
    have hjlt : j < parts.length := by
      by_contra hge
      rw [List.getElem?_eq_none (Nat.le_of_not_lt hge)] at hpart'
      cases hpart'
    rw [List.getElem?_range hjlt] at hx
    exact (Option.some.inj hx).symm
  subst hxj
  refine ⟨parts, x, part', e', hsp, hpart', hread', ?_⟩
  simp only [BigTableReadRowsParallel, hsw, hb]
  rw [hrun]

/-- Witness of C12: two keys, one batch, whose request fails. -/
theorem bigTableReadRowsParallel_store_failure_witness :
    ∃ parts i part e, spawnedBatches (RowSet.RowList ["k1", "k2"]) = some parts ∧
      parts[i]? = some part ∧
      (fun (_ : Nat) (_ : RowSet) => (Except.error "unavailable" : Except Error (List String)))
        i part = Except.error e ∧
      BigTableReadRowsParallel (fun _ _ => Except.error "unavailable") (fun _ => none) [0]
        (RowSet.RowList ["k1", "k2"]) = Outcome.returned (some e) ([] : List String) :=
  bigTableReadRowsParallel_store_failure (fun _ _ => Except.error "unavailable") (fun _ => none)
    [0] (RowSet.RowList ["k1", "k2"]) ["k1", "k2"] [] 2 rfl (by decide)
    ⟨[RowSet.RowList ["k1", "k2"]], 0, RowSet.RowList ["k1", "k2"], "unavailable",
      by decide, rfl, rfl⟩

theorem visitRows_cons_none {Row : Type} (action : Row → Option Error) (x : Row)
    (xs : List Row) (hx : action x = none) :
    visitRows action (x :: xs) = ((visitRows action xs).1, x :: (visitRows action xs).2) := by
  simp only [visitRows, hx]

theorem visitRows_cons_some {Row : Type} (action : Row → Option Error) (x : Row)
    (xs : List Row) (e : Error) (hx : action x = some e) :
    visitRows action (x :: xs) = (some e, [x]) := by
  simp only [visitRows, hx]

theorem visitRows_visits_all {Row : Type} (action : Row → Option Error) (rows : List Row)
    (h : ∀ row ∈ rows, action row = none) : visitRows action rows = (none, rows) := by
  induction rows with
  | nil => rfl
  | cons row rest ih =>
    rw [visitRows_cons_none action row rest (h row (List.mem_cons_self _ _)),
      ih (fun r hr => h r (List.mem_cons_of_mem _ hr))]

theorem visitRows_stops_at_first_error {Row : Type} (action : Row → Option Error)
    (before after : List Row) (row : Row) (e : Error)
    (hbefore : ∀ r ∈ before, action r = none) (hrow : action row = some e) :
    visitRows action (before ++ row :: after) = (some e, before ++ [row]) := by
  induction before with
  | nil => exact visitRows_cons_some action row after e hrow
  | cons b before ih =>
    rw [List.cons_append, visitRows_cons_none action b _ (hbefore b (List.mem_cons_self _ _)),
      ih (fun r hr => hbefore r (List.mem_cons_of_mem _ hr))]
    rfl

theorem visitRows_append_of_error {Row : Type} (action : Row → Option Error)
    (xs ys : List Row) (e : Error) (visited : List Row)
    (h : visitRows action xs = (some e, visited)) :
    visitRows action (xs ++ ys) = (some e, visited) := by
  induction xs generalizing visited with
  | nil => simp [visitRows] at h
  | cons x xs ih =>
    cases hx : action x with
    | some e' =>
      rw [visitRows_cons_some action x xs e' hx] at h
      rw [List.cons_append, visitRows_cons_some action x _ e' hx, h]
    | none =>
      rw [visitRows_cons_none action x xs hx] at h
      rw [List.cons_append, visitRows_cons_none action x _ hx]
      cases hv : visitRows action xs with
      | mk err v =>
        rw [hv] at h
        simp only [Prod.mk.injEq] at h
        obtain ⟨h1, h2⟩ := h
        subst h1
        rw [ih v hv, ← h2]

theorem visitRows_append_of_ok {Row : Type} (action : Row → Option Error)
    (xs ys : List Row) (visited : List Row) (h : visitRows action xs = (none, visited)) :
    visitRows action (xs ++ ys) =
      ((visitRows action ys).1, visited ++ (visitRows action ys).2) := by
  induction xs generalizing visited with
  | nil =>
    simp only [visitRows, Prod.mk.injEq, true_and] at h
    subst h
    rfl
  | cons x xs ih =>
    cases hx : action x with
    | some e' =>
      rw [visitRows_cons_some action x xs e' hx] at h
      cases h
    | none =>
      rw [visitRows_cons_none action x xs hx] at h
      rw [List.cons_append, visitRows_cons_none action x _ hx]
      cases hv : visitRows action xs with
      | mk err v =>
        rw [hv] at h
        simp only [Prod.mk.injEq] at h
        obtain ⟨h1, h2⟩ := h
        subst h1
        rw [ih v hv, ← h2]
        rfl

/-- The two nested loops of lines 308-314 visit the rows of the buffers in the
order of the queue, as one loop over their concatenation would. -/
theorem drainChan_eq_visitRows {Row : Type} (action : Row → Option Error)
    (chan : List (List Row)) : drainChan action chan = visitRows action chan.flatten := by
  induction chan with
  | nil => rfl
  | cons rows more ih =>
    rw [List.flatten_cons]
    cases hv : visitRows action rows with
    | mk err visited =>
      cases err with
      | some e =>
        rw [visitRows_append_of_error action rows _ e visited hv]
        simp only [drainChan, hv]
      | none =>
        rw [visitRows_append_of_ok action rows _ visited hv]
        simp only [drainChan, hv, ih]

theorem runTasks_all_ok_none {Row : Type} (capacity : Nat) (l : List (Except Error (List Row)))
    (hok : ∀ a ∈ l, ∃ rows, a = Except.ok rows) (hcap : capacity < l.length) :
    runTasks capacity l [] none = none := by
  have key : ∀ (l : List (Except Error (List Row))) (chan : List (List Row)),
      (∀ a ∈ l, ∃ rows, a = Except.ok rows) → capacity < chan.length + l.length →
      chan.length ≤ capacity → runTasks capacity l chan none = none := by
    intro l
    induction l with
    | nil => intro chan _ h1 h2; simp at h1; omega
    | cons a l ih =>
      intro chan hok h1 h2
      obtain ⟨rows, rfl⟩ := hok _ (List.mem_cons_self _ _)
      by_cases hlt : chan.length < capacity
      · simp only [runTasks, hlt, if_true]
        apply ih _ (fun b hb => hok b (List.mem_cons_of_mem _ hb))
        · simp only [List.length_append, List.length_singleton, List.length_cons] at h1 ⊢
          omega
        · simp only [List.length_append, List.length_singleton]
          omega
      · simp only [runTasks, hlt, if_false]
  exact key l [] hok (by simpa using hcap) (Nat.zero_le _)

/-- When every request succeeds: for a non-empty accepted `RowSet` the call
returns what the drain loop returns on the buffers in the order in which the
tasks finished, each buffer holding the rows of its batch in the order of the
store; for an empty accepted `RowSet` the call blocks. -/
theorem bigTableReadRowsParallel_all_ok {Row : Type}
    (ReadRows : Nat → RowSet → Except Error (List Row)) (action : Row → Option Error)
    (sched : List Nat) (rowSet : RowSet) (rowList : List String)
    (rowRangeList : List RowRange) (rowSetSize : Nat)
    (hsw : switchRowSet rowSet = some (rowList, rowRangeList, rowSetSize))
    (hsched : sched.Perm (List.range (rowSetSize / BtBatchQuerySize + 1)))
    (hok : ∀ i part, ∃ rows, ReadRows i part = Except.ok rows) :
    ∃ parts, spawnedBatches rowSet = some parts ∧
      BigTableReadRowsParallel ReadRows action sched rowSet =
        if rowSetSize = 0 then Outcome.blocked
        else Outcome.returned
          (visitRows action ((sched.filterMap (fun i =>
            (parts[i]?).map (fun part => rowsOf (ReadRows i part)))).flatten)).1
          (visitRows action ((sched.filterMap (fun i =>
            (parts[i]?).map (fun part => rowsOf (ReadRows i part)))).flatten)).2 := by
  obtain ⟨parts, hb, hsp, hlen⟩ := batches_of_switch rowSet rowList rowRangeList rowSetSize hsw
  refine ⟨parts, hsp, ?_⟩
  have hanslen : ((List.range parts.length).zipWith ReadRows parts).length =
      rowSetSize / BtBatchQuerySize + 1 := by
    simp [hlen]
  have hperm := finished_perm ((List.range parts.length).zipWith ReadRows parts) sched
    (by rw [hanslen]; exact hsched)
  have hansok : ∀ a ∈ (List.range parts.length).zipWith ReadRows parts,
      ∃ rows, a = Except.ok rows :=
    zipWith_all ReadRows _ (fun i part => hok i part) _ _
  have hfinok : ∀ a ∈ sched.filterMap
      (fun i => ((List.range parts.length).zipWith ReadRows parts)[i]?),
      ∃ rows, a = Except.ok rows := fun a ha => hansok a (hperm.mem_iff.1 ha)
  simp only [BigTableReadRowsParallel, hsw, hb]
  by_cases hS : rowSetSize = 0
  · rw [if_pos hS]
    have hfinlen := hperm.length_eq
    rw [hanslen] at hfinlen
    have hcap : chanCapacity rowSetSize < (sched.filterMap
        (fun i => ((List.range parts.length).zipWith ReadRows parts)[i]?)).length := by
      rw [hfinlen]
      unfold chanCapacity BtBatchQuerySize
      omega
    rw [runTasks_all_ok_none (chanCapacity rowSetSize) _ hfinok hcap]
  · rw [if_neg hS]
    have hfinlen := hperm.length_eq
    rw [hanslen] at hfinlen
    have hcap : ([] : List (List Row)).length + (sched.filterMap
        (fun i => ((List.range parts.length).zipWith ReadRows parts)[i]?)).length ≤
        chanCapacity rowSetSize := by
      rw [hfinlen]
      unfold chanCapacity BtBatchQuerySize
      simp only [List.length_nil]
      omega
    rw [runTasks_all_ok (chanCapacity rowSetSize) _ [] none hfinok hcap]
    simp only [List.nil_append, drainChan_eq_visitRows]
    have hchan : (sched.filterMap
        (fun i => ((List.range parts.length).zipWith ReadRows parts)[i]?)).map rowsOf =
        sched.filterMap (fun i => (parts[i]?).map (fun part => rowsOf (ReadRows i part))) := by
      rw [List.map_filterMap]
      apply List.filterMap_congr
      intro i _
      rw [List.getElem?_zipWith]
      by_cases hi : i < parts.length
      · rw [List.getElem?_range hi, List.getElem?_eq_getElem hi]
        rfl
      · rw [List.getElem?_eq_none (Nat.le_of_not_lt hi)]
        cases (List.range parts.length)[i]? <;> rfl
    rw [hchan]

/-- C13 (fails on the code): when the request of the one batch of an empty
RowList or RowRangeList succeeds, the drain loop is never reached: the call
blocks, whatever rows the store returned and whatever the visitor does. -/
theorem bigTableReadRowsParallel_drain_not_reached {Row : Type} (rows : List Row)
    (action : Row → Option Error) :
    BigTableReadRowsParallel (fun _ _ => Except.ok rows) action [0] (RowSet.RowRangeList []) =
        Outcome.blocked ∧
      BigTableReadRowsParallel (fun _ _ => Except.ok rows) action [0] (RowSet.RowList []) =
        Outcome.blocked := by
  have hb : batches [] [] 0 = some [RowSet.RowRangeList []] := by decide
  refine ⟨?_, ?_⟩
  · simp only [BigTableReadRowsParallel, switchRowSet, List.length_nil, hb, chanCapacity]
    rfl
  · simp only [BigTableReadRowsParallel, switchRowSet, List.length_nil, hb, chanCapacity]
    rfl

/-- C18 (fails on the code): `rowChan` has room for `rowSetSize` buffers
(line 274) while `rowSetSize / 1000 + 1` tasks may publish to it: the capacity
is at least the number of batches exactly when the RowSet is not empty.  For
the empty RowList and RowRangeList there is one batch and no room. -/
theorem chanCapacity_ge_batches_iff :
    (∀ keys : List String, ∃ parts, spawnedBatches (RowSet.RowList keys) = some parts ∧
      (parts.length ≤ chanCapacity keys.length ↔ keys ≠ [])) ∧
    (∀ ranges : List RowRange, ∃ parts,
      spawnedBatches (RowSet.RowRangeList ranges) = some parts ∧
      (parts.length ≤ chanCapacity ranges.length ↔ ranges ≠ [])) ∧
    chanCapacity (([] : List String).length) = 0 ∧
    (spawnedBatches (RowSet.RowList [])).map List.length = some 1 ∧
    (spawnedBatches (RowSet.RowRangeList [])).map List.length = some 1 := by
  have key : ∀ (rowSet : RowSet) (rowList : List String) (rowRangeList : List RowRange)
      (rowSetSize : Nat), switchRowSet rowSet = some (rowList, rowRangeList, rowSetSize) →
      ∃ parts, spawnedBatches rowSet = some parts ∧
        (parts.length ≤ chanCapacity rowSetSize ↔ rowSetSize ≠ 0) := by
    intro rowSet rowList rowRangeList rowSetSize hsw
    obtain ⟨parts, _, hsp, hlen⟩ := batches_of_switch rowSet rowList rowRangeList rowSetSize hsw
    refine ⟨parts, hsp, ?_⟩
    rw [hlen]
    unfold chanCapacity BtBatchQuerySize
    omega
  refine ⟨fun keys => ?_, fun ranges => ?_, rfl, by decide, by decide⟩
  · obtain ⟨parts, hsp, hiff⟩ := key (RowSet.RowList keys) keys [] keys.length rfl
    exact ⟨parts, hsp, hiff.trans (by simp)⟩
  · obtain ⟨parts, hsp, hiff⟩ := key (RowSet.RowRangeList ranges) [] ranges ranges.length rfl
    exact ⟨parts, hsp, hiff.trans (by simp)⟩

/-! ## `GetProjectID` -/

theorem cutFirst_dot (s : List Char) :
    cutFirst ['.'] s =
      if '.' ∈ s then some (s.takeWhile (· ≠ '.'), (s.dropWhile (· ≠ '.')).drop 1) else none := by
  induction s with
  | nil => rfl
  | cons c rest ih =>
    by_cases hc : c = '.'
    · subst hc
      simp [cutFirst, List.isPrefixOf]
    · have hne : ¬ '.' = c := fun h => hc h.symm
      simp only [cutFirst, List.isPrefixOf, ih]
      by_cases hmem : '.' ∈ rest
      · simp [hc, hne, hmem, List.takeWhile_cons, List.dropWhile_cons]
      · simp [hc, hne, hmem]

theorem cutFirst_of_isPrefixOf (p s : List Char) (hp : p ≠ []) (h : p.isPrefixOf s = true) :
    cutFirst p s = some ([], s.drop p.length) := by
  cases s with
  | nil =>
    cases p with
    | nil => exact absurd rfl hp
    | cons a p => simp [List.isPrefixOf] at h
  | cons c rest => simp only [cutFirst, h, if_true]

theorem splitN_dot_two (s : String) :
    strings.SplitN s "." 2 =
      if '.' ∈ s.data then
        [String.mk (s.data.takeWhile (· ≠ '.')),
          String.mk ((s.data.dropWhile (· ≠ '.')).drop 1)]
      else [s] := by
  have hdot : ".".data = ['.'] := rfl
  simp only [strings.SplitN, hdot, cutFirst_dot]
  by_cases h : '.' ∈ s.data
  · simp only [h, if_true]
  · simp only [h, if_false]

/-- C17: for every dataset name `db`, the project id `GetProjectID` returns and
the code of its error are those of the claim, `GetProjectIDSpec`, which is
written with the literals `"google.com:"` and `"InvalidArgument"`: with the
prefix `google.com:` and a `.` in the rest, the prefix followed by the part of
the rest before its first `.` and no error; without the prefix and with a `.`,
the part of `db` before its first `.` and no error; otherwise the empty project
id and an `InvalidArgument` error. The error, when there is one, carries the
message of lines 92 and 99, and the constant `BqPrefix` is the prefix of the
claim. -/
theorem getProjectID_eq_spec (db : String) :
    ((GetProjectID db).1, (GetProjectID db).2.map StatusError.code) = GetProjectIDSpec db ∧
      (GetProjectID db).2.map StatusError.message =
        (GetProjectIDSpec db).2.map (fun _ => "Bad bigquery database name " ++ db) ∧
      BqPrefix = "google.com:" := by
  have hB : BqPrefix.data = "google.com:".data := rfl
  have key : GetProjectID db =
      if "google.com:".data <+: db.data then
        if '.' ∈ db.data.drop "google.com:".data.length then
          (String.mk ("google.com:".data ++
            (db.data.drop "google.com:".data.length).takeWhile (· ≠ '.')), none)
        else ("", some (badDatabaseName db))
      else if '.' ∈ db.data then (String.mk (db.data.takeWhile (· ≠ '.')), none)
      else ("", some (badDatabaseName db)) := by
    unfold GetProjectID
    by_cases hpre : "google.com:".data <+: db.data
    · have hb : strings.HasPrefix db BqPrefix = true := by
        unfold strings.HasPrefix
        rw [hB]
        exact List.isPrefixOf_iff_prefix.2 hpre
      have hrep : strings.Replace db BqPrefix "" 1 =
          String.mk (db.data.drop "google.com:".data.length) := by
        simp only [strings.Replace]
        rw [hB, cutFirst_of_isPrefixOf "google.com:".data db.data (by decide)
          (List.isPrefixOf_iff_prefix.2 hpre)]
        apply String.ext
        simp
      rw [if_pos hb, if_pos hpre, hrep, splitN_dot_two]
      by_cases hdot : '.' ∈ db.data.drop "google.com:".data.length
      · simp only [hdot, if_true]
        apply Prod.ext
        · apply String.ext
          rw [String.data_append, hB]
        · rfl
      · simp only [hdot, if_false]
    · have hb : ¬ strings.HasPrefix db BqPrefix = true := by
        unfold strings.HasPrefix
        rw [hB]
        exact fun h => hpre (List.isPrefixOf_iff_prefix.1 h)
      rw [if_neg hb, if_neg hpre, splitN_dot_two]
      by_cases hdot : '.' ∈ db.data
      · simp only [hdot, if_true]
      · simp only [hdot, if_false]
  refine ⟨?_, ?_, rfl⟩
  · rw [key]
    unfold GetProjectIDSpec
    by_cases hpre : "google.com:".data <+: db.data
    · by_cases hdot : '.' ∈ db.data.drop "google.com:".data.length
      · simp only [hpre, hdot, if_true, Option.map_none']
      · simp only [hpre, hdot, if_true, if_false, Option.map_some', badDatabaseName]
    · by_cases hdot : '.' ∈ db.data
      · simp only [hpre, hdot, if_true, if_false, Option.map_none']
      · simp only [hpre, hdot, if_false, Option.map_some', badDatabaseName]
  · rw [key]
    unfold GetProjectIDSpec
    by_cases hpre : "google.com:".data <+: db.data
    · by_cases hdot : '.' ∈ db.data.drop "google.com:".data.length
      · simp only [hpre, hdot, if_true, Option.map_none']
      · simp only [hpre, hdot, if_true, if_false, Option.map_some', badDatabaseName]
    · by_cases hdot : '.' ∈ db.data
      · simp only [hpre, hdot, if_true, if_false, Option.map_none']
      · simp only [hpre, hdot, if_false, Option.map_some', badDatabaseName]

/-- The cases of C17 on concrete dataset names. -/
theorem getProjectID_examples :
    GetProjectID "google.com:proj.dataset" = ("google.com:proj", none) ∧
    GetProjectID "proj.dataset.table" = ("proj", none) ∧
    GetProjectID "google.com:nodot" = ("", some (badDatabaseName "google.com:nodot")) ∧
    GetProjectID "nodot" = ("", some (badDatabaseName "nodot")) ∧
    GetProjectID "x.google.com:y" = ("x", none) := by
  decide

end Mixer
